import Mathlib

/-!
Formal model of the `filing_assistant` pattern-learning and column-identification
pipeline (shallow embedding of `src/filing_assistant/`).

Strings are modelled as `List Char`; Python floats as `ℚ`; Python dicts are
modelled extensionally as partial maps `String → Option α` (the merge engine) or
as association lists where iteration order matters.  ASCII semantics are used for
the character classes of the regular expressions involved.
-/

/-- Python whitespace characters: the set removed by `str.strip()` and matched by
the regex class `\s` (ASCII range). -/
def pyIsSpace (c : Char) : Bool :=
  c == ' ' || c == '\t' || c == '\n' || c == '\r' || c == '\x0b' || c == '\x0c'

/-- Python `str.strip()`: remove leading and trailing whitespace. -/
def pyStrip (s : List Char) : List Char :=
  ((s.dropWhile pyIsSpace).reverse.dropWhile pyIsSpace).reverse

/-- Non-empty test of `enhanced_trainer.analyze_column_filling_patterns` (line 42):
`v and v not in ['0', '']` — the (already stripped) value is neither the empty
string nor the literal "0". -/
def countsNonEmpty (v : List Char) : Bool :=
  v != [] && v != ['0']

/-- Sampled, stripped values of one version of the column: `rows[:200]` each
converted by `str(row.get(column_key, "")).strip()`.  The input is the list of
raw stringified cell values of the analysed column, one per row. -/
def sampleValues (rows : List (List Char)) : List (List Char) :=
  (rows.take 200).map pyStrip

/-- The non-empty sampled values of one version (used for the counts, the unique
sets and `filled_non_empty_values`). -/
def nonEmptyValues (rows : List (List Char)) : List (List Char) :=
  (sampleValues rows).filter countsNonEmpty

/-- `total_rows = min(len(empty_values), len(filled_values))`. -/
def totalRows (e f : List (List Char)) : ℕ :=
  min (sampleValues e).length (sampleValues f).length

/-- `empty_ratio = empty_non_empty / total_rows`. -/
def emptyRatio (e f : List (List Char)) : ℚ :=
  ((nonEmptyValues e).length : ℚ) / (totalRows e f : ℚ)

/-- `filled_ratio = filled_non_empty / total_rows`. -/
def filledRatio (e f : List (List Char)) : ℚ :=
  ((nonEmptyValues f).length : ℚ) / (totalRows e f : ℚ)

/-- Signals 1 and 2 of the fillability score (mutually exclusive if/elif):
empty-to-filled transition (score 0.8) else increased filling (score 0.6). -/
def signal12 (e f : List (List Char)) : ℚ × List String :=
  if emptyRatio e f ≤ 1/10 ∧ 3/10 ≤ filledRatio e f then
    (4/5, ["empty_to_filled"])
  else if emptyRatio e f < filledRatio e f ∧ 1/5 ≤ filledRatio e f - emptyRatio e f then
    (3/5, ["increased_filling"])
  else (0, [])

/-- Test of `re.match(r'^[\d.,]+$', v.replace(' ', ''))`: after removing spaces
the value is non-empty and made only of digits, dots and commas. -/
def isNumericValue (v : List Char) : Bool :=
  let w := v.filter (fun c => c != ' ')
  w != [] && w.all (fun c => c.isDigit || c == '.' || c == ',')

/-- Search of the pattern `\d+`: the value contains a digit. -/
def hasDigitSub (v : List Char) : Bool :=
  v.any Char.isDigit

/-- Search of the pattern `[\d.,]+`: the value contains a digit, dot or comma. -/
def hasAmountSub (v : List Char) : Bool :=
  v.any (fun c => c.isDigit || c == '.' || c == ',')

/-- ASCII uppercase letter. -/
def isUpperAZ (c : Char) : Bool :=
  'A' ≤ c && c ≤ 'Z'

/-- Search of the pattern `[A-Z]{2,4}`: two consecutive uppercase letters occur. -/
def hasTwoUpper : List Char → Bool
  | a :: b :: t => (isUpperAZ a && isUpperAZ b) || hasTwoUpper (b :: t)
  | _ => false

/-- Match of `\d{4}-\d{2}-\d{2}` at the head of the list. -/
def matchDateAt : List Char → Bool
  | a :: b :: c :: d :: s1 :: e :: f :: s2 :: g :: h :: _ =>
    a.isDigit && b.isDigit && c.isDigit && d.isDigit && s1 == '-' &&
    e.isDigit && f.isDigit && s2 == '-' && g.isDigit && h.isDigit
  | _ => false

/-- Search of the ISO-date pattern `\d{4}-\d{2}-\d{2}` anywhere in the value. -/
def hasDateSub : List Char → Bool
  | [] => false
  | l@(_ :: t) => matchDateAt l || hasDateSub t

/-- ASCII lowercase letter. -/
def isLowerAZ (c : Char) : Bool :=
  'a' ≤ c && c ≤ 'z'

/-- Match of the email pattern `[a-z]+@[a-z]+\.[a-z]+` at the head of the list.
The character classes are disjoint from the delimiters, so maximal-run parsing
is exact. -/
def matchEmailAt (l : List Char) : Bool :=
  match l.takeWhile isLowerAZ, l.dropWhile isLowerAZ with
  | _ :: _, '@' :: r2 =>
    (match r2.takeWhile isLowerAZ, r2.dropWhile isLowerAZ with
     | _ :: _, '.' :: r4 => !(r4.takeWhile isLowerAZ).isEmpty
     | _, _ => false)
  | _, _ => false

/-- Search of the email pattern anywhere in the value. -/
def hasEmailSub : List Char → Bool
  | [] => false
  | l@(_ :: t) => matchEmailAt l || hasEmailSub t

/-- `pattern_matches`: how many of the five common fillable-value patterns match
at least one filled non-empty value. -/
def structuredCount (vals : List (List Char)) : ℕ :=
  (if vals.any hasDigitSub then 1 else 0) +
  (if vals.any hasAmountSub then 1 else 0) +
  (if vals.any hasTwoUpper then 1 else 0) +
  (if vals.any hasDateSub then 1 else 0) +
  (if vals.any hasEmailSub then 1 else 0)

/-- Signal 3 fires: both samples are non-empty and the distinct non-empty filled
values exceed 1.5 times the distinct non-empty empty values. -/
def diversityFires (e f : List (List Char)) : Bool :=
  decide (0 < (sampleValues f).length) && decide (0 < (sampleValues e).length) &&
  decide ((((nonEmptyValues e).dedup.length : ℚ) * (3/2)) < ((nonEmptyValues f).dedup.length : ℚ))

/-- Signal 4 fires: the filled non-empty values are mostly numeric
(`numeric_ratio > 0.7`). -/
def numericFires (e f : List (List Char)) : Bool :=
  !(nonEmptyValues f).isEmpty &&
  decide ((7/10 : ℚ) < (((nonEmptyValues f).filter isNumericValue).length : ℚ) /
    ((nonEmptyValues f).length : ℚ))

/-- Signal 5 fires: at least two of the five common patterns match. -/
def structuredFires (e f : List (List Char)) : Bool :=
  !(nonEmptyValues f).isEmpty && decide (2 ≤ structuredCount (nonEmptyValues f))

/-- The additive `fillability_score` of the analyzer. -/
def fillabilityScore (e f : List (List Char)) : ℚ :=
  (signal12 e f).1 + (if diversityFires e f then 3/10 else 0) +
  (if numericFires e f then 1/5 else 0) + (if structuredFires e f then 1/10 else 0)

/-- The accumulated `reasons` list, in the order the source appends the tags. -/
def analysisReasons (e f : List (List Char)) : List String :=
  (signal12 e f).2 ++ (if diversityFires e f then ["value_diversity_increase"] else []) ++
  (if numericFires e f then ["numeric_pattern"] else []) ++
  (if structuredFires e f then ["structured_pattern"] else [])

/-- The result dictionary built by `analyze_column_filling_patterns` in the
normal case. -/
structure FillAnalysis where
  fillable : Bool
  confidence : ℚ
  empty_ratio : ℚ
  filled_ratio : ℚ
  empty_count : ℕ
  filled_count : ℕ
  total_rows : ℕ
  reasons : List String
  filled_sample_values : List (List Char)
deriving DecidableEq

/-- Result of the analyzer: either the terminal `no_data` dictionary
(`fillable=False, confidence=0.0, reason="no_data"`) or the full analysis. -/
inductive FillResult where
  | noData : FillResult
  | ok : FillAnalysis → FillResult
deriving DecidableEq

/-- `enhanced_trainer.analyze_column_filling_patterns` (lines 24-126). -/
def analyze_column_filling_patterns (e f : List (List Char)) : FillResult :=
  if totalRows e f = 0 then FillResult.noData
  else
    FillResult.ok
      ⟨decide ((3/10 : ℚ) ≤ min (fillabilityScore e f) 1),
       min (fillabilityScore e f) 1,
       emptyRatio e f, filledRatio e f,
       (nonEmptyValues e).length, (nonEmptyValues f).length,
       totalRows e f, analysisReasons e f,
       (nonEmptyValues f).take 10⟩

/-- The "fillable" entry of the result dictionary (False in the `no_data` case). -/
def FillResult.getFillable : FillResult → Bool
  | .noData => false
  | .ok a => a.fillable

/-- The "confidence" entry of the result dictionary (0.0 in the `no_data` case). -/
def FillResult.getConfidence : FillResult → ℚ
  | .noData => 0
  | .ok a => a.confidence

/-- The "reason" entry: present (with value "no_data") only in the terminal case. -/
def FillResult.getReason : FillResult → Option String
  | .noData => some "no_data"
  | .ok _ => none

/-- The "reasons" entry of the result dictionary (absent, read as empty, in the
terminal case). -/
def FillResult.getReasons : FillResult → List String
  | .noData => []
  | .ok a => a.reasons

/-- Shape of the analyzer result when the overlapping sample is non-empty. -/
theorem analyze_eq_ok (e f : List (List Char)) (h : ¬ totalRows e f = 0) :
    analyze_column_filling_patterns e f = FillResult.ok
      ⟨decide ((3/10 : ℚ) ≤ min (fillabilityScore e f) 1),
       min (fillabilityScore e f) 1,
       emptyRatio e f, filledRatio e f,
       (nonEmptyValues e).length, (nonEmptyValues f).length,
       totalRows e f, analysisReasons e f,
       (nonEmptyValues f).take 10⟩ := by
  unfold analyze_column_filling_patterns
  rw [if_neg h]

/-- Concrete evaluation: the empty-version sample ["a", "a"] against the filled
sample ["b"] yields empty_ratio 2 (greater than 1) and no fired signal. -/
theorem analyzeAB_eval : analyze_column_filling_patterns [['a'], ['a']] [['b']] =
    FillResult.ok ⟨false, 0, 2, 1, 2, 1, 1, [], [['b']]⟩ := by
  have hE : emptyRatio [['a'], ['a']] [['b']] = 2 := by
    unfold emptyRatio
    rw [show (nonEmptyValues [['a'], ['a']]).length = 2 from by decide,
        show totalRows [['a'], ['a']] [['b']] = 1 from by decide]
    norm_num
  have hF : filledRatio [['a'], ['a']] [['b']] = 1 := by
    unfold filledRatio
    rw [show (nonEmptyValues [['b']]).length = 1 from by decide,
        show totalRows [['a'], ['a']] [['b']] = 1 from by decide]
    norm_num
  have hsig : signal12 [['a'], ['a']] [['b']] = (0, []) := by
    unfold signal12
    rw [hE, hF]
    split_ifs with h1 h2
    · exact absurd h1 (by norm_num)
    · exact absurd h2 (by norm_num)
    · rfl
  have hdiv : diversityFires [['a'], ['a']] [['b']] = false := by
    unfold diversityFires
    have hq : ¬(((nonEmptyValues [['a'], ['a']]).dedup.length : ℚ) * (3/2) <
        ((nonEmptyValues [['b']]).dedup.length : ℚ)) := by
      rw [show (nonEmptyValues [['a'], ['a']]).dedup.length = 1 from by decide,
          show (nonEmptyValues [['b']]).dedup.length = 1 from by decide]
      norm_num
    rw [decide_eq_false hq]
    simp
  have hnum : numericFires [['a'], ['a']] [['b']] = false := by
    unfold numericFires
    have hq : ¬((7/10 : ℚ) < (((nonEmptyValues [['b']]).filter isNumericValue).length : ℚ) /
        ((nonEmptyValues [['b']]).length : ℚ)) := by
      rw [show ((nonEmptyValues [['b']]).filter isNumericValue).length = 0 from by decide,
          show (nonEmptyValues [['b']]).length = 1 from by decide]
      norm_num
    rw [decide_eq_false hq]
    simp
  have hstr : structuredFires [['a'], ['a']] [['b']] = false := by
    unfold structuredFires
    rw [show structuredCount (nonEmptyValues [['b']]) = 0 from by decide]
    simp
  have hscore : fillabilityScore [['a'], ['a']] [['b']] = 0 := by
    unfold fillabilityScore
    rw [hsig, hdiv, hnum, hstr]
    norm_num
  rw [analyze_eq_ok _ _ (by decide)]
  have hmin : min (fillabilityScore [['a'], ['a']] [['b']]) 1 = 0 := by
    rw [hscore]
    norm_num [min_def]
  congr 1
  refine FillAnalysis.mk.injEq .. |>.mpr ⟨?_, ?_, hE, hF, by decide, by decide, by decide, ?_, by decide⟩
  · rw [hmin]
    exact decide_eq_false (by norm_num)
  · exact hmin
  · unfold analysisReasons
    rw [hsig, hdiv, hnum, hstr]
    rfl

/-- C1 — If both value samples are non-empty and the computed empty-sample
non-empty ratio is at most 0.1 while the filled-sample non-empty ratio is at
least 0.3, then the Column Fillability Analyzer returns fillable = true with
confidence at least 0.8 and the tag "empty_to_filled" among the reasons. -/
theorem analyzer_empty_to_filled_spec (e f : List (List Char)) (he : e ≠ []) (hf : f ≠ [])
    (a : FillAnalysis) (hres : analyze_column_filling_patterns e f = FillResult.ok a)
    (h1 : a.empty_ratio ≤ 1/10) (h2 : 3/10 ≤ a.filled_ratio) :
    a.fillable = true ∧ (4/5 : ℚ) ≤ a.confidence ∧ "empty_to_filled" ∈ a.reasons := by
  unfold analyze_column_filling_patterns at hres
  split at hres
  · exact absurd hres (by simp)
  · injection hres with h
    subst h
    have h1' : emptyRatio e f ≤ 1/10 := h1
    have h2' : 3/10 ≤ filledRatio e f := h2
    have hsig : signal12 e f = (4/5, ["empty_to_filled"]) := by
      unfold signal12
      rw [if_pos ⟨h1', h2'⟩]
    have hscore : (4/5 : ℚ) ≤ fillabilityScore e f := by
      unfold fillabilityScore
      rw [hsig]
      have t1 : (0:ℚ) ≤ if diversityFires e f then 3/10 else 0 := by split <;> norm_num
      have t2 : (0:ℚ) ≤ if numericFires e f then 1/5 else 0 := by split <;> norm_num
      have t3 : (0:ℚ) ≤ if structuredFires e f then 1/10 else 0 := by split <;> norm_num
      dsimp only
      linarith
    have hconf : (4/5 : ℚ) ≤ min (fillabilityScore e f) 1 :=
      le_min hscore (by norm_num)
    refine ⟨?_, hconf, ?_⟩
    · exact decide_eq_true (by linarith)
    · show "empty_to_filled" ∈ analysisReasons e f
      unfold analysisReasons
      rw [hsig]
      exact List.mem_append_left _ (List.mem_append_left _ (List.mem_append_left _ (by simp)))

/-- Witness for C1: the pair of samples ([""], ["a"]) has ratios 0 and 1 and
satisfies the conclusion. -/
theorem analyzer_empty_to_filled_spec_witness :
    (analyze_column_filling_patterns [[]] [['a']]).getFillable = true ∧
    (4/5 : ℚ) ≤ (analyze_column_filling_patterns [[]] [['a']]).getConfidence ∧
    "empty_to_filled" ∈ (analyze_column_filling_patterns [[]] [['a']]).getReasons := by
  have hres := analyze_eq_ok [[]] [['a']] (by decide)
  have h1 : emptyRatio [[]] [['a']] ≤ 1/10 := by
    unfold emptyRatio
    rw [show (nonEmptyValues [[]]).length = 0 from by decide,
        show totalRows [[]] [['a']] = 1 from by decide]
    norm_num
  have h2 : (3/10 : ℚ) ≤ filledRatio [[]] [['a']] := by
    unfold filledRatio
    rw [show (nonEmptyValues [['a']]).length = 1 from by decide,
        show totalRows [[]] [['a']] = 1 from by decide]
    norm_num
  have h := analyzer_empty_to_filled_spec [[]] [['a']] (by simp) (by simp) _ hres h1 h2
  rw [hres]
  exact ⟨h.1, h.2.1, h.2.2⟩

/-- C9 — With zero overlapping sampled rows (the minimum of the two sample
lengths is 0) the analyzer returns exactly the terminal dictionary:
fillable = false, confidence = 0.0, reason "no_data", and no error. -/
theorem analyzer_no_data_spec (e f : List (List Char)) (h : totalRows e f = 0) :
    analyze_column_filling_patterns e f = FillResult.noData ∧
    (analyze_column_filling_patterns e f).getFillable = false ∧
    (analyze_column_filling_patterns e f).getConfidence = 0 ∧
    (analyze_column_filling_patterns e f).getReason = some "no_data" := by
  have hr : analyze_column_filling_patterns e f = FillResult.noData := by
    unfold analyze_column_filling_patterns
    rw [if_pos h]
  rw [hr]
  exact ⟨rfl, rfl, rfl, rfl⟩

/-- Witness for C9: an empty empty-version sample against one filled row. -/
theorem analyzer_no_data_spec_witness :
    analyze_column_filling_patterns [] [['a']] = FillResult.noData ∧
    (analyze_column_filling_patterns [] [['a']]).getFillable = false ∧
    (analyze_column_filling_patterns [] [['a']]).getConfidence = 0 ∧
    (analyze_column_filling_patterns [] [['a']]).getReason = some "no_data" :=
  analyzer_no_data_spec [] [['a']] (by decide)

/-- C10 — A sampled value counts as non-empty iff its stripped form is neither
empty nor "0"; the per-version counts range over that version's whole truncated
sample while both ratios are divided by the minimum of the two sample lengths;
consequently an input whose empty-version sample is strictly longer than the
filled-version sample can return an empty_ratio exceeding 1. -/
theorem analyzer_sampling_ratio_spec :
    (∀ v : List Char, countsNonEmpty (pyStrip v) = true ↔
      (pyStrip v ≠ [] ∧ pyStrip v ≠ ['0'])) ∧
    (∀ e f a, analyze_column_filling_patterns e f = FillResult.ok a →
      a.empty_count = (((e.take 200).map pyStrip).filter countsNonEmpty).length ∧
      a.filled_count = (((f.take 200).map pyStrip).filter countsNonEmpty).length ∧
      a.empty_ratio = (a.empty_count : ℚ) /
        ((min ((e.take 200).map pyStrip).length ((f.take 200).map pyStrip).length : ℕ) : ℚ) ∧
      a.filled_ratio = (a.filled_count : ℚ) /
        ((min ((e.take 200).map pyStrip).length ((f.take 200).map pyStrip).length : ℕ) : ℚ)) ∧
    (∃ e f a, e.length > f.length ∧ analyze_column_filling_patterns e f = FillResult.ok a ∧
      1 < a.empty_ratio) := by
  refine ⟨?_, ?_, ?_⟩
  · intro v
    simp [countsNonEmpty]
  · intro e f a hres
    unfold analyze_column_filling_patterns at hres
    split at hres
    · exact absurd hres (by simp)
    · injection hres with h
      subst h
      exact ⟨rfl, rfl, rfl, rfl⟩
  · refine ⟨[['a'], ['a']], [['b']], ⟨false, 0, 2, 1, 2, 1, 1, [], [['b']]⟩,
      by decide, analyzeAB_eval, by norm_num⟩

/-- Witness for C10: the sampling equations instantiated on the concrete input
(["a","a"], ["b"]), whose empty_ratio is 2. -/
theorem analyzer_sampling_ratio_spec_witness :
    (⟨false, 0, 2, 1, 2, 1, 1, [], [['b']]⟩ : FillAnalysis).empty_count =
      ((([['a'], ['a']].take 200).map pyStrip).filter countsNonEmpty).length ∧
    (⟨false, 0, 2, 1, 2, 1, 1, [], [['b']]⟩ : FillAnalysis).filled_count =
      ((([['b']].take 200).map pyStrip).filter countsNonEmpty).length ∧
    (⟨false, 0, 2, 1, 2, 1, 1, [], [['b']]⟩ : FillAnalysis).empty_ratio =
      ((⟨false, 0, 2, 1, 2, 1, 1, [], [['b']]⟩ : FillAnalysis).empty_count : ℚ) /
        ((min (([['a'], ['a']].take 200).map pyStrip).length
          (([['b']].take 200).map pyStrip).length : ℕ) : ℚ) ∧
    (⟨false, 0, 2, 1, 2, 1, 1, [], [['b']]⟩ : FillAnalysis).filled_ratio =
      ((⟨false, 0, 2, 1, 2, 1, 1, [], [['b']]⟩ : FillAnalysis).filled_count : ℚ) /
        ((min (([['a'], ['a']].take 200).map pyStrip).length
          (([['b']].take 200).map pyStrip).length : ℕ) : ℚ) :=
  analyzer_sampling_ratio_spec.2.1 [['a'], ['a']] [['b']] _ analyzeAB_eval

/-- Bool test that `pat` is a prefix of the list. -/
def litPre : List Char → List Char → Bool
  | [], _ => true
  | _ :: _, [] => false
  | p :: ps, x :: xs => p == x && litPre ps xs

/-- One pass of `re.sub(pat, '', s)` for a literal pattern: remove every
non-overlapping occurrence, scanning left to right.  The fuel argument (always
instantiated with the length of the list) makes the recursion structural. -/
def subLitF (pat : List Char) : Nat → List Char → List Char
  | _, [] => []
  | 0, l => l
  | fuel + 1, c :: rest =>
    if pat ≠ [] ∧ litPre pat (c :: rest) = true then
      subLitF pat fuel ((c :: rest).drop pat.length)
    else c :: subLitF pat fuel rest

/-- `re.sub` with a literal pattern and empty replacement. -/
def subLit (pat l : List Char) : List Char :=
  subLitF pat l.length l

/-- Distance to the earliest position where `closeL` starts, with no newline
before it — the semantics of the non-greedy `.*?` followed by the closing
delimiter (`.` does not match a newline). -/
def seekClose (closeL : List Char) : List Char → Option Nat
  | [] => if litPre closeL [] then some 0 else none
  | c :: rest =>
    if litPre closeL (c :: rest) then some 0
    else if c == '\n' then none
    else (seekClose closeL rest).map (· + 1)

/-- One pass of `re.sub(open .*? close, '', s)` for the template-marker patterns
with an opening and a closing delimiter (again with structural fuel). -/
def subDelimF (openL closeL : List Char) : Nat → List Char → List Char
  | _, [] => []
  | 0, l => l
  | fuel + 1, c :: rest =>
    if openL ≠ [] ∧ litPre openL (c :: rest) = true then
      match seekClose closeL ((c :: rest).drop openL.length) with
      | some n => subDelimF openL closeL fuel ((c :: rest).drop (openL.length + n + closeL.length))
      | none => c :: subDelimF openL closeL fuel rest
    else c :: subDelimF openL closeL fuel rest

/-- `re.sub` for a delimited non-greedy pattern with empty replacement. -/
def subDelim (openL closeL l : List Char) : List Char :=
  subDelimF openL closeL l.length l

/-- Test of the character class `[:|\|]` at the head of the list. -/
def sepAt : List Char → Bool
  | c :: _ => c == ':' || c == '|'
  | [] => false

/-- The alternatives of `^(axis|bid|itemType|predefinedAlternativeBid)[:|\|]`
(pairwise distinct first letters, so at most one can match). -/
def sysAlts : List (List Char) :=
  ["axis".data, "bid".data, "itemType".data, "predefinedAlternativeBid".data]

/-- `re.sub(r'^(axis|bid|itemType|predefinedAlternativeBid)[:|\|]', '', s)`:
the anchored pattern can only remove one leading occurrence. -/
def stripSysPre (s : List Char) : List Char :=
  match sysAlts.find? (fun w => litPre w s && sepAt (s.drop w.length)) with
  | some w => s.drop (w.length + 1)
  | none => s

/-- `re.sub(r'\|.*$', '', s)` without MULTILINE or DOTALL: a pipe matches only
if between it and the end of the string (or the final newline, which `$` also
accepts) there is no other newline; everything from that pipe on is removed
(a final newline survives). -/
def pipeCutGo : List Char → List Char
  | [] => []
  | c :: rest =>
    if c == '|' && rest.all (fun d => d != '\n') then []
    else if c == '|' && !rest.isEmpty && rest.dropLast.all (fun d => d != '\n') &&
        (rest.getLast? == some '\n') then ['\n']
    else c :: pipeCutGo rest

/-- The character class `[(){}\[\]]` (braces written with hex escapes). -/
def bracketChars : List Char := ['(', ')', '\x7b', '\x7d', '[', ']']

/-- `re.sub(r'\s+', '_', s)`: collapse each maximal whitespace run into one
underscore (structural fuel). -/
def wsCollapseF : Nat → List Char → List Char
  | _, [] => []
  | 0, l => l
  | fuel + 1, c :: rest =>
    if pyIsSpace c then '_' :: wsCollapseF fuel (rest.dropWhile pyIsSpace)
    else c :: wsCollapseF fuel rest

/-- Whitespace-run collapsing. -/
def wsCollapse (l : List Char) : List Char :=
  wsCollapseF l.length l

/-- `re.sub(r'_+', '_', s)`: collapse each maximal underscore run into one
underscore (structural fuel). -/
def usCollapseF : Nat → List Char → List Char
  | _, [] => []
  | 0, l => l
  | fuel + 1, c :: rest =>
    if c == '_' then '_' :: usCollapseF fuel (rest.dropWhile (fun d => d == '_'))
    else c :: usCollapseF fuel rest

/-- Underscore-run collapsing. -/
def usCollapse (l : List Char) : List Char :=
  usCollapseF l.length l

/-- Python `str.strip('_')`. -/
def stripUnders (s : List Char) : List Char :=
  ((s.dropWhile (fun d => d == '_')).reverse.dropWhile (fun d => d == '_')).reverse

/-- `enhanced_header_detector.EnhancedHeaderDetector.clean_header_name`
(lines 592-611): template markers, system prefixes, pipe truncation, bracket
removal, whitespace and underscore normalization, lowercasing.  The trailing
`return cleaned if len(cleaned) > 0 else ''` is the identity. -/
def clean_header_name (raw : List Char) : List Char :=
  let s1 := subDelim "<<".data ">>".data raw
  let s2 := subDelim ['\x7b', '\x7b'] ['\x7d', '\x7d'] s1
  let s3 := subDelim ['$', '\x7b'] ['\x7d'] s2
  let s4 := subLit "axis(".data s3
  let s5 := subLit "bid|".data s4
  let s6 := subLit "template.".data s5
  let s7 := subLit "var.".data s6
  let s8 := stripSysPre s7
  let s9 := pipeCutGo s8
  let s10 := s9.filter (fun c => !(bracketChars.contains c))
  let s11 := wsCollapse (pyStrip s10)
  let s12 := usCollapse s11
  let s13 := stripUnders s12
  s13.map Char.toLower

/-- Characters on which every stage of the cleaning pipeline is inert: lowercase
ASCII letters, digits and underscore (all fixed by lowercasing). -/
def safeChar (c : Char) : Bool :=
  (isLowerAZ c || c.isDigit || c == '_') && (c.toLower == c)

/-- No two consecutive underscores. -/
def noDoubleUnder : List Char → Bool
  | a :: b :: t => !(a == '_' && b == '_') && noDoubleUnder (b :: t)
  | _ => true

/-- A string in the canonical cleaned shape: safe characters only, no repeated
underscore, no leading or trailing underscore. -/
def safeHeader (s : List Char) : Bool :=
  s.all safeChar && noDoubleUnder s && !(s.head? == some '_') && !(s.getLast? == some '_')

theorem litPre_mem {p l : List Char} (h : litPre p l = true) : ∀ c ∈ p, c ∈ l := by
  induction p generalizing l with
  | nil => simp
  | cons x xs ih =>
    cases l with
    | nil => simp [litPre] at h
    | cons y ys =>
      simp only [litPre, Bool.and_eq_true, beq_iff_eq] at h
      obtain ⟨rfl, hrest⟩ := h
      intro c hc
      rcases List.mem_cons.mp hc with rfl | hc
      · exact List.mem_cons_self _ _
      · exact List.mem_cons_of_mem _ (ih hrest c hc)

theorem safe_not_mem {t : List Char} (hall : ∀ c ∈ t, safeChar c = true) {κ : Char}
    (hκ : safeChar κ = false) : κ ∉ t := by
  intro hm
  rw [hall κ hm] at hκ
  exact absurd hκ (by simp)

theorem subLitF_id {pat : List Char} {c0 : Char} (hc0 : c0 ∈ pat) :
    ∀ (fuel : Nat) (l : List Char), c0 ∉ l → subLitF pat fuel l = l := by
  intro fuel
  induction fuel with
  | zero => intro l _; cases l <;> rfl
  | succ n ih =>
    intro l h
    cases l with
    | nil => rfl
    | cons c rest =>
      have hnp : ¬ litPre pat (c :: rest) = true := fun hp => h (litPre_mem hp c0 hc0)
      simp only [subLitF]
      rw [if_neg (fun hh => hnp hh.2)]
      rw [ih rest (fun hx => h (List.mem_cons_of_mem _ hx))]

theorem subLit_id {pat l : List Char} {c0 : Char} (hc0 : c0 ∈ pat) (h : c0 ∉ l) :
    subLit pat l = l :=
  subLitF_id hc0 l.length l h

theorem subDelimF_id {openL closeL : List Char} {c0 : Char} (hc0 : c0 ∈ openL) :
    ∀ (fuel : Nat) (l : List Char), c0 ∉ l → subDelimF openL closeL fuel l = l := by
  intro fuel
  induction fuel with
  | zero => intro l _; cases l <;> rfl
  | succ n ih =>
    intro l h
    cases l with
    | nil => rfl
    | cons c rest =>
      have hnp : ¬ litPre openL (c :: rest) = true := fun hp => h (litPre_mem hp c0 hc0)
      simp only [subDelimF]
      rw [if_neg (fun hh => hnp hh.2)]
      rw [ih rest (fun hx => h (List.mem_cons_of_mem _ hx))]

theorem subDelim_id {openL closeL l : List Char} {c0 : Char} (hc0 : c0 ∈ openL) (h : c0 ∉ l) :
    subDelim openL closeL l = l :=
  subDelimF_id hc0 l.length l h

theorem stripSysPre_id {l : List Char} (h1 : ':' ∉ l) (h2 : '|' ∉ l) : stripSysPre l = l := by
  unfold stripSysPre
  have hnone : sysAlts.find? (fun w => litPre w l && sepAt (l.drop w.length)) = none := by
    rw [List.find?_eq_none]
    intro w _
    simp only [Bool.and_eq_true, not_and]
    intro _ hsep
    cases hd : l.drop w.length with
    | nil => rw [hd] at hsep; simp [sepAt] at hsep
    | cons d ds =>
      rw [hd] at hsep
      simp only [sepAt, Bool.or_eq_true, beq_iff_eq] at hsep
      have hdl : d ∈ l := List.drop_subset _ _ (by rw [hd]; exact List.mem_cons_self _ _)
      rcases hsep with rfl | rfl
      · exact h1 hdl
      · exact h2 hdl
  rw [hnone]

theorem pipeCutGo_id {l : List Char} (h : '|' ∉ l) : pipeCutGo l = l := by
  induction l with
  | nil => rfl
  | cons c rest ih =>
    have hc : (c == '|') = false := by
      simp only [beq_eq_false_iff_ne, ne_eq]
      intro hcc
      exact h (by rw [hcc]; exact List.mem_cons_self _ _)
    simp only [pipeCutGo]
    rw [if_neg (by simp [hc]), if_neg (by simp [hc])]
    rw [ih (fun hx => h (List.mem_cons_of_mem _ hx))]

theorem dropWhile_id_of_all {p : Char → Bool} {l : List Char} (h : ∀ c ∈ l, p c = false) :
    l.dropWhile p = l := by
  cases l with
  | nil => rfl
  | cons c t => rw [List.dropWhile_cons, if_neg (by simp [h c (List.mem_cons_self c t)])]

theorem pyStrip_id {l : List Char} (h : ∀ c ∈ l, pyIsSpace c = false) : pyStrip l = l := by
  unfold pyStrip
  rw [dropWhile_id_of_all h]
  rw [dropWhile_id_of_all (fun c hc => h c (List.mem_reverse.mp hc))]
  exact List.reverse_reverse l

theorem wsCollapseF_id : ∀ (fuel : Nat) (l : List Char), (∀ c ∈ l, pyIsSpace c = false) →
    wsCollapseF fuel l = l := by
  intro fuel
  induction fuel with
  | zero => intro l _; cases l <;> rfl
  | succ n ih =>
    intro l h
    cases l with
    | nil => rfl
    | cons c rest =>
      simp only [wsCollapseF]
      rw [if_neg (by simp [h c (List.mem_cons_self c rest)])]
      rw [ih rest (fun x hx => h x (List.mem_cons_of_mem _ hx))]

theorem noDoubleUnder_tail {x : Char} {xs : List Char} (h : noDoubleUnder (x :: xs) = true) :
    noDoubleUnder xs = true := by
  cases xs with
  | nil => rfl
  | cons y ys =>
    simp only [noDoubleUnder, Bool.and_eq_true] at h
    exact h.2

theorem usCollapseF_id : ∀ (fuel : Nat) (l : List Char), noDoubleUnder l = true →
    usCollapseF fuel l = l := by
  intro fuel
  induction fuel with
  | zero => intro l _; cases l <;> rfl
  | succ n ih =>
    intro l hl
    cases l with
    | nil => rfl
    | cons c rest =>
      by_cases hc : c = '_'
      · subst hc
        simp only [usCollapseF]
        rw [if_pos (by simp)]
        have hrest : rest.dropWhile (fun d => d == '_') = rest := by
          cases rest with
          | nil => rfl
          | cons y ys =>
            have hy : (y == '_') = false := by
              have h' := hl
              simp only [noDoubleUnder, Bool.and_eq_true, Bool.not_eq_true'] at h'
              simpa using h'.1
            rw [List.dropWhile_cons, if_neg (by simp [hy])]
        rw [hrest, ih rest (noDoubleUnder_tail hl)]
      · simp only [usCollapseF]
        rw [if_neg (by simp [hc])]
        rw [ih rest (noDoubleUnder_tail hl)]

theorem stripUnders_id {l : List Char} (h1 : ¬ l.head? = some '_') (h2 : ¬ l.getLast? = some '_') :
    stripUnders l = l := by
  unfold stripUnders
  have d1 : l.dropWhile (fun d => d == '_') = l := by
    cases l with
    | nil => rfl
    | cons c t =>
      rw [List.dropWhile_cons, if_neg]
      simp only [List.head?_cons] at h1
      simp only [beq_iff_eq]
      intro hc
      exact h1 (by rw [hc])
  rw [d1]
  have d2 : l.reverse.dropWhile (fun d => d == '_') = l.reverse := by
    cases hr : l.reverse with
    | nil => rfl
    | cons c t =>
      rw [List.dropWhile_cons, if_neg]
      have hc : l.getLast? = some c := by
        rw [← List.head?_reverse, hr]
        rfl
      simp only [beq_iff_eq]
      intro hcc
      exact h2 (by rw [hc, hcc])
  rw [d2, List.reverse_reverse]

theorem clean_fix_of_safe {t : List Char} (h : safeHeader t = true) : clean_header_name t = t := by
  have hparts := h
  simp only [safeHeader, Bool.and_eq_true, Bool.not_eq_true', List.all_eq_true] at hparts
  have hall := hparts.1.1.1
  have hdu := hparts.1.1.2
  have hh := hparts.1.2
  have hl := hparts.2
  have m1 : subDelim "<<".data ">>".data t = t :=
    subDelim_id (show '<' ∈ "<<".data by decide) (safe_not_mem hall (by decide))
  have m2 : subDelim ['\x7b', '\x7b'] ['\x7d', '\x7d'] t = t :=
    subDelim_id (show '\x7b' ∈ ['\x7b', '\x7b'] by decide) (safe_not_mem hall (by decide))
  have m3 : subDelim ['$', '\x7b'] ['\x7d'] t = t :=
    subDelim_id (show '$' ∈ ['$', '\x7b'] by decide) (safe_not_mem hall (by decide))
  have m4 : subLit "axis(".data t = t :=
    subLit_id (show '(' ∈ "axis(".data by decide) (safe_not_mem hall (by decide))
  have m5 : subLit "bid|".data t = t :=
    subLit_id (show '|' ∈ "bid|".data by decide) (safe_not_mem hall (by decide))
  have m6 : subLit "template.".data t = t :=
    subLit_id (show '.' ∈ "template.".data by decide) (safe_not_mem hall (by decide))
  have m7 : subLit "var.".data t = t :=
    subLit_id (show '.' ∈ "var.".data by decide) (safe_not_mem hall (by decide))
  have m8 : stripSysPre t = t :=
    stripSysPre_id (safe_not_mem hall (by decide)) (safe_not_mem hall (by decide))
  have m9 : pipeCutGo t = t := pipeCutGo_id (safe_not_mem hall (by decide))
  have m10 : t.filter (fun c => !(bracketChars.contains c)) = t := by
    rw [List.filter_eq_self]
    intro c hc
    have hsafe := hall c hc
    by_contra hcon
    simp only [Bool.not_eq_true, Bool.not_eq_false] at hcon
    have hmem : c ∈ bracketChars := by simpa using hcon
    fin_cases hmem <;> exact absurd hsafe (by decide)
  have hnospace : ∀ c ∈ t, pyIsSpace c = false := by
    intro c hc
    have hsafe := hall c hc
    by_contra hsp
    simp only [Bool.not_eq_false] at hsp
    simp only [pyIsSpace, Bool.or_eq_true, beq_iff_eq] at hsp
    rcases hsp with ((((rfl | rfl) | rfl) | rfl) | rfl) | rfl <;> exact absurd hsafe (by decide)
  have m11 : pyStrip t = t := pyStrip_id hnospace
  have m12 : wsCollapse t = t := wsCollapseF_id _ _ hnospace
  have m13 : usCollapse t = t := usCollapseF_id _ _ hdu
  have m14 : stripUnders t = t := by
    refine stripUnders_id ?_ ?_
    · simpa using hh
    · simpa using hl
  have m15 : t.map Char.toLower = t := by
    have hfix : ∀ c ∈ t, Char.toLower c = c := by
      intro c hc
      have := hall c hc
      simp only [safeChar, Bool.and_eq_true, beq_iff_eq] at this
      exact this.2
    rw [List.map_congr_left hfix]
    simp
  simp only [clean_header_name]
  rw [m1, m2, m3, m4, m5, m6, m7, m8, m9, m10, m11, m12, m13, m14, m15]

/-- C5 counterexample — header cleaning is not idempotent: "VAR.FOO" cleans to
"var.foo" (lowercasing is the final step), and cleaning that again strips the
now-lowercase template marker "var.", giving "foo". -/
theorem clean_header_not_idempotent :
    clean_header_name (clean_header_name "VAR.FOO".data) ≠ clean_header_name "VAR.FOO".data := by
  decide

/-- C5 amended — header cleaning is idempotent on every input whose cleaned form
is in the canonical shape (only lowercase letters, digits and isolated interior
underscores); inputs whose cleaned form still contains a marker substring such
as "var." are cleaned further by a second pass. -/
theorem clean_header_idempotent_amended (s : List Char)
    (h : safeHeader (clean_header_name s) = true) :
    clean_header_name (clean_header_name s) = clean_header_name s :=
  clean_fix_of_safe h

/-- Witness for the amended C5: "Lane ID" cleans to "lane_id", which is in
canonical shape and cleans to itself. -/
theorem clean_header_idempotent_amended_witness :
    safeHeader (clean_header_name "Lane ID".data) = true ∧
    clean_header_name (clean_header_name "Lane ID".data) = clean_header_name "Lane ID".data :=
  ⟨by decide, clean_header_idempotent_amended "Lane ID".data (by decide)⟩

/-- Python `sorted(set(a) | set(b))`: the sorted list of the union of the two
value sets (string order). -/
def sortedUnion (a b : List String) : List String :=
  (a.toFinset ∪ b.toFinset).sort (· ≤ ·)

/-- One sheet entry of the pattern store as `store.merge_patterns` sees it.
Python dictionaries are modelled extensionally as partial maps; a payload
missing a key behaves like the corresponding `dict.get` default.  The
verification values are opaque to the merge (type parameter `V`). -/
structure MergeSheet (V : Type) where
  header_map : String → Option (List String)
  columns_to_fill : List String
  column_positions : String → Option Int
  verifications : String → Option V

/-- The default payload installed by
`out["sheets"].setdefault(sheet, {"header_map": {}, "columns_to_fill": [], ...})`. -/
def emptyMergeSheet {V : Type} : MergeSheet V :=
  ⟨fun _ => none, [], fun _ => none, fun _ => none⟩

/-- A pattern store: a map from sheet name to sheet payload. -/
structure MergeStore (V : Type) where
  sheets : String → Option (MergeSheet V)

/-- The per-sheet body of the merge loop in `store.merge_patterns` (lines 18-30):
header-variant sets and the fillable set are unioned and sorted; positions and
verifications are overwritten per key (last-write-wins). -/
def mergeSheetPayload {V : Type} (target payload : MergeSheet V) : MergeSheet V where
  header_map := fun norm =>
    match payload.header_map norm with
    | none => target.header_map norm
    | some variants => some (sortedUnion ((target.header_map norm).getD []) variants)
  columns_to_fill := sortedUnion target.columns_to_fill payload.columns_to_fill
  column_positions := fun k =>
    match payload.column_positions k with
    | none => target.column_positions k
    | some v => some v
  verifications := fun k =>
    match payload.verifications k with
    | none => target.verifications k
    | some v => some v

/-- `store.merge_patterns` (lines 16-31), pointwise per sheet: sheets absent
from `incoming` are kept from the (deep-copied) base store; sheets present in
`incoming` are merged against the base payload or the empty default. -/
def merge_patterns {V : Type} (store incoming : MergeStore V) : MergeStore V :=
  ⟨fun sheet =>
    match incoming.sheets sheet with
    | none => store.sheets sheet
    | some payload => some (mergeSheetPayload ((store.sheets sheet).getD emptyMergeSheet) payload)⟩

/-- The columns_to_fill list stored for a sheet (none when the sheet is absent). -/
def ctfAt {V : Type} (st : MergeStore V) (sheet : String) : Option (List String) :=
  (st.sheets sheet).map (fun p => p.columns_to_fill)

/-- The header_map entry stored for a sheet and normalized header. -/
def hmAt {V : Type} (st : MergeStore V) (sheet norm : String) : Option (Option (List String)) :=
  (st.sheets sheet).map (fun p => p.header_map norm)

theorem sortedUnion_idem_right (a b : List String) :
    sortedUnion (sortedUnion a b) b = sortedUnion a b := by
  unfold sortedUnion
  congr 1
  rw [Finset.sort_toFinset]
  rw [Finset.union_assoc, Finset.union_self]

theorem sortedUnion_right_comm (t p q : List String) :
    sortedUnion (sortedUnion t p) q = sortedUnion (sortedUnion t q) p := by
  unfold sortedUnion
  congr 1
  rw [Finset.sort_toFinset, Finset.sort_toFinset]
  exact Finset.union_right_comm _ _ _

theorem mergeSheetPayload_ctf {V : Type} (t p : MergeSheet V) :
    (mergeSheetPayload t p).columns_to_fill =
      sortedUnion t.columns_to_fill p.columns_to_fill := rfl

theorem mergeSheetPayload_hm {V : Type} (t p : MergeSheet V) (norm : String) :
    (mergeSheetPayload t p).header_map norm =
      match p.header_map norm with
      | none => t.header_map norm
      | some variants => some (sortedUnion ((t.header_map norm).getD []) variants) := rfl

theorem merge_sheets_none {V : Type} (S I : MergeStore V) (sheet : String)
    (h : I.sheets sheet = none) : (merge_patterns S I).sheets sheet = S.sheets sheet := by
  simp [merge_patterns, h]

theorem merge_sheets_some {V : Type} (S I : MergeStore V) (sheet : String) (p : MergeSheet V)
    (h : I.sheets sheet = some p) : (merge_patterns S I).sheets sheet =
      some (mergeSheetPayload ((S.sheets sheet).getD emptyMergeSheet) p) := by
  simp [merge_patterns, h]

/-- C3 — Merge is idempotent on the set-valued fields: applying the same
incoming patterns twice leaves, for every sheet, the columns_to_fill list and
every header_map variant set identical to a single application. -/
theorem merge_patterns_idempotent {V : Type} (S I : MergeStore V) (sheet : String) :
    ctfAt (merge_patterns (merge_patterns S I) I) sheet = ctfAt (merge_patterns S I) sheet ∧
    ∀ norm, hmAt (merge_patterns (merge_patterns S I) I) sheet norm =
      hmAt (merge_patterns S I) sheet norm := by
  cases hI : I.sheets sheet with
  | none =>
    constructor
    · simp only [ctfAt]
      rw [merge_sheets_none _ _ _ hI, merge_sheets_none _ _ _ hI]
    · intro norm
      simp only [hmAt]
      rw [merge_sheets_none _ _ _ hI, merge_sheets_none _ _ _ hI]
  | some p =>
    have h1 := merge_sheets_some S I sheet p hI
    have h2 : (merge_patterns (merge_patterns S I) I).sheets sheet =
        some (mergeSheetPayload
          (mergeSheetPayload ((S.sheets sheet).getD emptyMergeSheet) p) p) := by
      rw [merge_sheets_some _ _ _ _ hI, h1, Option.getD_some]
    constructor
    · simp only [ctfAt]
      rw [h1, h2]
      simp only [Option.map_some', mergeSheetPayload_ctf]
      rw [sortedUnion_idem_right]
    · intro norm
      simp only [hmAt]
      rw [h1, h2]
      simp only [Option.map_some', mergeSheetPayload_hm]
      cases hp : p.header_map norm with
      | none => simp [hp]
      | some vs =>
        simp only [hp, Option.getD_some]
        rw [sortedUnion_idem_right]

/-- C4 — Merge is commutative on the set-valued fields: merging two incoming
pattern objects in either order yields, for every sheet, the same
columns_to_fill list and the same header_map variant sets (positions and
verifications are last-write-wins and excluded). -/
theorem merge_patterns_commutative {V : Type} (S A B : MergeStore V) (sheet : String) :
    ctfAt (merge_patterns (merge_patterns S A) B) sheet =
      ctfAt (merge_patterns (merge_patterns S B) A) sheet ∧
    ∀ norm, hmAt (merge_patterns (merge_patterns S A) B) sheet norm =
      hmAt (merge_patterns (merge_patterns S B) A) sheet norm := by
  cases hA : A.sheets sheet with
  | none =>
    cases hB : B.sheets sheet with
    | none =>
      have l1 : (merge_patterns (merge_patterns S A) B).sheets sheet = S.sheets sheet := by
        rw [merge_sheets_none _ _ _ hB, merge_sheets_none _ _ _ hA]
      have l2 : (merge_patterns (merge_patterns S B) A).sheets sheet = S.sheets sheet := by
        rw [merge_sheets_none _ _ _ hA, merge_sheets_none _ _ _ hB]
      constructor
      · simp only [ctfAt]
        rw [l1, l2]
      · intro norm
        simp only [hmAt]
        rw [l1, l2]
    | some q =>
      have l1 : (merge_patterns (merge_patterns S A) B).sheets sheet =
          some (mergeSheetPayload ((S.sheets sheet).getD emptyMergeSheet) q) := by
        rw [merge_sheets_some _ _ _ _ hB, merge_sheets_none _ _ _ hA]
      have l2 : (merge_patterns (merge_patterns S B) A).sheets sheet =
          some (mergeSheetPayload ((S.sheets sheet).getD emptyMergeSheet) q) := by
        rw [merge_sheets_none _ _ _ hA, merge_sheets_some _ _ _ _ hB]
      constructor
      · simp only [ctfAt]
        rw [l1, l2]
      · intro norm
        simp only [hmAt]
        rw [l1, l2]
  | some p =>
    cases hB : B.sheets sheet with
    | none =>
      have l1 : (merge_patterns (merge_patterns S A) B).sheets sheet =
          some (mergeSheetPayload ((S.sheets sheet).getD emptyMergeSheet) p) := by
        rw [merge_sheets_none _ _ _ hB, merge_sheets_some _ _ _ _ hA]
      have l2 : (merge_patterns (merge_patterns S B) A).sheets sheet =
          some (mergeSheetPayload ((S.sheets sheet).getD emptyMergeSheet) p) := by
        rw [merge_sheets_some _ _ _ _ hA, merge_sheets_none _ _ _ hB]
      constructor
      · simp only [ctfAt]
        rw [l1, l2]
      · intro norm
        simp only [hmAt]
        rw [l1, l2]
    | some q =>
      have l1 : (merge_patterns (merge_patterns S A) B).sheets sheet =
          some (mergeSheetPayload
            (mergeSheetPayload ((S.sheets sheet).getD emptyMergeSheet) p) q) := by
        rw [merge_sheets_some _ _ _ _ hB, merge_sheets_some _ _ _ _ hA, Option.getD_some]
      have l2 : (merge_patterns (merge_patterns S B) A).sheets sheet =
          some (mergeSheetPayload
            (mergeSheetPayload ((S.sheets sheet).getD emptyMergeSheet) q) p) := by
        rw [merge_sheets_some _ _ _ _ hA, merge_sheets_some _ _ _ _ hB, Option.getD_some]
      constructor
      · simp only [ctfAt]
        rw [l1, l2]
        simp only [Option.map_some', mergeSheetPayload_ctf]
        rw [sortedUnion_right_comm]
      · intro norm
        simp only [hmAt]
        rw [l1, l2]
        simp only [Option.map_some', mergeSheetPayload_hm]
        cases hp : p.header_map norm with
        | none =>
          cases hq : q.header_map norm with
          | none => simp [hp, hq]
          | some ws => simp [hp, hq]
        | some vs =>
          cases hq : q.header_map norm with
          | none => simp [hp, hq]
          | some ws =>
            simp only [hp, hq, Option.getD_some]
            rw [sortedUnion_right_comm]

/-- Length of the common prefix of two character lists. -/
def commonPre : List Char → List Char → Nat
  | a :: as, b :: bs => if a == b then commonPre as bs + 1 else 0
  | _, _ => 0

/-- All candidate matching blocks (i, j, run length at (i, j)) considered by
`SequenceMatcher.find_longest_match`: every pair of start positions with the
length of the equal run starting there. -/
def blockCands (a b : List Char) : List (Nat × Nat × Nat) :=
  (List.range (a.length + 1)).flatMap (fun i =>
    (List.range (b.length + 1)).map (fun j => (i, j, commonPre (a.drop i) (b.drop j))))

/-- `find_longest_match`: the longest matching block, ties resolved towards the
earliest start in `a`, then the earliest start in `b` (strict comparison in the
fold keeps the first maximal candidate). -/
def bestBlock (a b : List Char) : Nat × Nat × Nat :=
  (blockCands a b).foldl (fun best c => if best.2.2 < c.2.2 then c else best) (0, 0, 0)

theorem foldl_choice {α : Type} (step : α → α → α)
    (hstep : ∀ x y, step x y = x ∨ step x y = y) :
    ∀ (l : List α) (init : α), l.foldl step init = init ∨ l.foldl step init ∈ l := by
  intro l
  induction l with
  | nil => intro init; exact Or.inl rfl
  | cons c t ih =>
    intro init
    rw [List.foldl_cons]
    rcases ih (step init c) with h | h
    · rcases hstep init c with h2 | h2
      · exact Or.inl (h.trans h2)
      · exact Or.inr (by rw [h, h2]; exact List.mem_cons_self _ _)
    · exact Or.inr (List.mem_cons_of_mem _ h)

theorem commonPre_le_left : ∀ (x y : List Char), commonPre x y ≤ x.length := by
  intro x
  induction x with
  | nil => intro y; cases y <;> simp [commonPre]
  | cons a as ih =>
    intro y
    cases y with
    | nil => simp [commonPre]
    | cons b bs =>
      simp only [commonPre, List.length_cons]
      split
      · exact Nat.succ_le_succ (ih bs)
      · exact Nat.zero_le _

theorem commonPre_le_right : ∀ (x y : List Char), commonPre x y ≤ y.length := by
  intro x
  induction x with
  | nil => intro y; cases y <;> simp [commonPre]
  | cons a as ih =>
    intro y
    cases y with
    | nil => simp [commonPre]
    | cons b bs =>
      simp only [commonPre, List.length_cons]
      split
      · exact Nat.succ_le_succ (ih bs)
      · exact Nat.zero_le _

theorem bestBlock_bounds (a b : List Char) :
    (bestBlock a b).1 + (bestBlock a b).2.2 ≤ a.length ∧
    (bestBlock a b).2.1 + (bestBlock a b).2.2 ≤ b.length := by
  have hc := foldl_choice (fun best c => if best.2.2 < c.2.2 then c else best)
    (fun x y => by dsimp only; split <;> [exact Or.inr rfl; exact Or.inl rfl])
    (blockCands a b) (0, 0, 0)
  rcases hc with h | h
  · unfold bestBlock
    rw [h]
    simp
  · unfold bestBlock
    set r := (blockCands a b).foldl (fun best c => if best.2.2 < c.2.2 then c else best) (0, 0, 0)
    simp only [blockCands, List.mem_flatMap, List.mem_map, List.mem_range] at h
    obtain ⟨i, hi, j, hj, hr⟩ := h
    have h1 : r.1 = i := by rw [← hr]
    have h2 : r.2.1 = j := by rw [← hr]
    have h3 : r.2.2 = commonPre (a.drop i) (b.drop j) := by rw [← hr]
    constructor
    · rw [h1, h3]
      have := commonPre_le_left (a.drop i) (b.drop j)
      rw [List.length_drop] at this
      omega
    · rw [h2, h3]
      have := commonPre_le_right (a.drop i) (b.drop j)
      rw [List.length_drop] at this
      omega

/-- Total size of the matching blocks of `SequenceMatcher.get_matching_blocks`
(the recursive decomposition of Ratcliff-Obershelp, without the autojunk
heuristic that only activates on sequences of length at least 200). -/
def matchTotal (a b : List Char) : Nat :=
  if h : (bestBlock a b).2.2 = 0 then 0
  else
    matchTotal (a.take (bestBlock a b).1) (b.take (bestBlock a b).2.1) +
    (bestBlock a b).2.2 +
    matchTotal (a.drop ((bestBlock a b).1 + (bestBlock a b).2.2))
      (b.drop ((bestBlock a b).2.1 + (bestBlock a b).2.2))
termination_by a.length + b.length
decreasing_by
  · have hb := bestBlock_bounds a b
    simp only [List.length_take]
    omega
  · have hb := bestBlock_bounds a b
    simp only [List.length_drop]
    omega

theorem matchTotal_le (a b : List Char) :
    matchTotal a b ≤ min a.length b.length := by
  induction a, b using matchTotal.induct with
  | case1 a b h =>
    rw [matchTotal, dif_pos h]
    exact Nat.zero_le _
  | case2 a b h ih1 ih2 =>
    rw [matchTotal, dif_neg h]
    have hb := bestBlock_bounds a b
    have i1 := ih1
    have i2 := ih2
    simp only [List.length_take, List.length_drop] at i1 i2
    omega

/-- `difflib.SequenceMatcher(None, a, b).ratio()`: twice the matched total over
the combined length (1.0 for two empty sequences, as in `_calculate_ratio`). -/
def seqRatio (a b : List Char) : ℚ :=
  if a.length + b.length = 0 then 1
  else 2 * (matchTotal a b : ℚ) / ((a.length : ℚ) + (b.length : ℚ))

theorem seqRatio_nonneg (a b : List Char) : 0 ≤ seqRatio a b := by
  unfold seqRatio
  split
  · norm_num
  · positivity

theorem seqRatio_le_one (a b : List Char) : seqRatio a b ≤ 1 := by
  unfold seqRatio
  split
  · exact le_refl 1
  · rename_i h
    have hpos : (0 : ℚ) < (a.length : ℚ) + (b.length : ℚ) := by
      have : 0 < a.length + b.length := Nat.pos_of_ne_zero h
      exact_mod_cast this
    rw [div_le_one hpos]
    have hm := matchTotal_le a b
    have hm1 : matchTotal a b ≤ a.length := le_trans hm (Nat.min_le_left _ _)
    have hm2 : matchTotal a b ≤ b.length := le_trans hm (Nat.min_le_right _ _)
    have c1 : (matchTotal a b : ℚ) ≤ (a.length : ℚ) := by exact_mod_cast hm1
    have c2 : (matchTotal a b : ℚ) ≤ (b.length : ℚ) := by exact_mod_cast hm2
    linarith

/-- One stored verification entry: the fields `_find_best_cross_sheet_match`
reads with `.get` defaults (label "unknown", confidence 0.0, method "learned"). -/
structure Verification where
  label : Option String
  confidence : Option ℚ
  method : Option String

/-- One stored enhanced-pattern entry: the analyzer only reads its optional
"label" field. -/
structure EnhPattern where
  label : Option String

/-- One learned sheet as the Cross-Sheet Analyzer reads it. -/
structure LearnedSheet where
  columns_to_fill : List String
  verifications : List (String × Verification)
  enhanced_patterns : List (String × EnhPattern)

/-- A candidate match produced inside `_find_best_cross_sheet_match`.  The
formatted similarity suffixes of the method / decision-factor strings are
omitted (display only). -/
structure Candidate where
  confidence : ℚ
  match_type : String
  source_sheet : String
  label : String
  method : String
  is_learned_fillable : Bool
  decision_factors : List String

/-- The `{}` default of `verifications.get(header, {})`. -/
def emptyVerification : Verification := ⟨none, none, none⟩

/-- Python `str.lower()` (ASCII). -/
def lowerStr (s : String) : List Char := s.data.map Char.toLower

/-- `CrossSheetAnalyzer._find_semantic_matches` (lines 249-268): one candidate
per verified header whose similarity ratio exceeds 0.7. -/
def semanticMatches (header sheetName : String)
    (verifs : List (String × Verification)) : List Candidate :=
  verifs.filterMap (fun vv =>
    if 7/10 < seqRatio (lowerStr header) (lowerStr vv.1) then
      some ⟨seqRatio (lowerStr header) (lowerStr vv.1) * (vv.2.confidence.getD 0) * (7/10),
        "semantic_similarity", sheetName, vv.2.label.getD "unknown",
        "semantic_similarity", false, ["semantic_match"]⟩
    else none)

/-- The candidates contributed by one learned sheet in the loop of
`_find_best_cross_sheet_match` (lines 168-218): direct fillable membership
(0.95), verification match (confidence x 0.85), enhanced-pattern match (0.75)
and the semantic matches. -/
def sheetCandidates (header : String) (nameLd : String × LearnedSheet) : List Candidate :=
  (if header ∈ nameLd.2.columns_to_fill then
    [⟨19/20, "direct_learned_fillable", nameLd.1,
      (((nameLd.2.verifications.lookup header).getD emptyVerification).label).getD "unknown",
      (((nameLd.2.verifications.lookup header).getD emptyVerification).method).getD "learned",
      true, ["direct_match", "learned_fillable"]⟩]
   else []) ++
  (match nameLd.2.verifications.lookup header with
   | some v => [⟨(v.confidence.getD 0) * (17/20), "verification_match", nameLd.1,
       v.label.getD "unknown", v.method.getD "learned",
       decide (header ∈ nameLd.2.columns_to_fill), ["verification_match"]⟩]
   | none => []) ++
  (match nameLd.2.enhanced_patterns.lookup header with
   | some p => [⟨3/4, "enhanced_pattern_match", nameLd.1, p.label.getD "unknown",
       "enhanced_pattern", decide (header ∈ nameLd.2.columns_to_fill), ["enhanced_pattern"]⟩]
   | none => []) ++
  semanticMatches header nameLd.1 nameLd.2.verifications

/-- All candidates gathered across every learned sheet of the store, in
iteration order. -/
def candidatesFor (header : String) (sheets : List (String × LearnedSheet)) : List Candidate :=
  sheets.flatMap (sheetCandidates header)

/-- The wrapped best match returned by `_find_best_cross_sheet_match`. -/
structure BestMatch where
  confidence : ℚ
  label : String
  method : String
  is_learned_fillable : Bool
  decision_factors : List String
  source_patterns : List String
  best_match_type : String

/-- Python `max(candidates, key=...)`: the first candidate of maximal
confidence (strict comparison keeps the earlier one on ties). -/
def pickBest (c : Candidate) (cs : List Candidate) : Candidate :=
  cs.foldl (fun best x => if best.confidence < x.confidence then x else best) c

/-- `CrossSheetAnalyzer._find_best_cross_sheet_match` (lines 162-247).  When no
candidate exists anywhere in the store the external label verifier (an
injected collaborator) supplies (label, confidence, method).  The
source-pattern list is the deduplicated list of contributing sheets (Python
builds `list(set(...))`, whose order is unspecified). -/
def findBestCrossSheetMatch (verifyLabel : String → String × ℚ × String)
    (header : String) (sheets : List (String × LearnedSheet)) : BestMatch :=
  match candidatesFor header sheets with
  | [] =>
    ⟨(verifyLabel header).2.1, (verifyLabel header).1, (verifyLabel header).2.2, false,
      ["live_verification"], [], "fallback"⟩
  | c :: cs =>
    ⟨(pickBest c cs).confidence, (pickBest c cs).label,
      (pickBest c cs).method ++ "+cross-sheet", (pickBest c cs).is_learned_fillable,
      (pickBest c cs).decision_factors ++ ["cross_sheet_analysis"],
      ((c :: cs).map (fun x => x.source_sheet)).dedup, (pickBest c cs).match_type⟩

/-- The per-column result dictionary of
`CrossSheetAnalyzer._analyze_sheet_with_cross_patterns` (lines 122-151). -/
structure ColumnResult where
  header : String
  label : String
  confidence : ℚ
  verified_by : String
  decision : String
  learned_fillable : Bool
  decision_factors : List String
  enhanced_header : Bool
  source_patterns : List String

/-- The per-column decision logic of `_analyze_sheet_with_cross_patterns`:
enhancement bonus of 0.15 when AI header enhancement has confidence above 0.8,
cap at 1.0, then fill iff directly learned-fillable or above the threshold. -/
def analyzeColumn (verifyLabel : String → String × ℚ × String) (header : String)
    (sheets : List (String × LearnedSheet)) (enhanced_used : Bool)
    (enhancement_confidence threshold : ℚ) : ColumnResult :=
  let bm := findBestCrossSheetMatch verifyLabel header sheets
  let bonus : Bool := enhanced_used && decide ((4/5 : ℚ) < enhancement_confidence)
  let final_confidence := min (bm.confidence + (if bonus then 3/20 else 0)) 1
  ⟨header, bm.label, final_confidence, bm.method,
   if bm.is_learned_fillable || decide (threshold ≤ final_confidence) then "fill" else "unknown",
   bm.is_learned_fillable,
   bm.decision_factors ++ (if bonus then ["ai_enhanced_header"] else []),
   enhanced_used, bm.source_patterns⟩

/-- Well-formedness of a pattern store per the data model: every stored
verification confidence lies in [0, 1] (the `.get` default 0.0 included). -/
def StoreWF (sheets : List (String × LearnedSheet)) : Prop :=
  ∀ p ∈ sheets, ∀ q ∈ p.2.verifications,
    0 ≤ q.2.confidence.getD 0 ∧ q.2.confidence.getD 0 ≤ 1

theorem lookup_mem {α : Type} {k : String} {v : α} :
    ∀ {l : List (String × α)}, l.lookup k = some v → (k, v) ∈ l := by
  intro l
  induction l with
  | nil => intro h; exact absurd h (by simp)
  | cons a t ih =>
    intro h
    rw [List.lookup] at h
    split at h
    · rename_i heq
      have : k = a.1 := by simpa using heq
      have hv : v = a.2 := by injection h with h'; exact h'.symm
      rw [this, hv]
      exact List.mem_cons_self _ _
    · exact List.mem_cons_of_mem _ (ih h)

theorem candidate_bound {header : String} {sheets : List (String × LearnedSheet)}
    (hwf : StoreWF sheets) :
    ∀ c ∈ candidatesFor header sheets,
      c.is_learned_fillable = true ∨ c.confidence ≤ 17/20 := by
  intro c hc
  unfold candidatesFor at hc
  rw [List.mem_flatMap] at hc
  obtain ⟨p, hp, hcp⟩ := hc
  unfold sheetCandidates at hcp
  rcases List.mem_append.mp hcp with h3 | hsem
  rotate_left
  · -- semantic similarity candidates
    right
    unfold semanticMatches at hsem
    rw [List.mem_filterMap] at hsem
    obtain ⟨kv, hkv, heq⟩ := hsem
    split at heq
    · injection heq with heq
      subst heq
      have hconf := hwf p hp kv hkv
      have hs0 := seqRatio_nonneg (lowerStr header) (lowerStr kv.1)
      have hs1 := seqRatio_le_one (lowerStr header) (lowerStr kv.1)
      have hle : seqRatio (lowerStr header) (lowerStr kv.1) * (kv.2.confidence.getD 0) ≤ 1 :=
        mul_le_one₀ hs1 hconf.1 hconf.2
      have hge : 0 ≤ seqRatio (lowerStr header) (lowerStr kv.1) * (kv.2.confidence.getD 0) :=
        mul_nonneg hs0 hconf.1
      show seqRatio (lowerStr header) (lowerStr kv.1) * (kv.2.confidence.getD 0) * (7/10) ≤ 17/20
      nlinarith
    · exact absurd heq (by simp)
  rcases List.mem_append.mp h3 with h2 | henh
  rotate_left
  · -- enhanced pattern candidate: flat 0.75
    right
    cases he : p.2.enhanced_patterns.lookup header with
    | none => rw [he] at henh; exact absurd henh (by simp)
    | some q =>
      rw [he] at henh
      rw [List.mem_singleton] at henh
      subst henh
      norm_num
  rcases List.mem_append.mp h2 with hdir | hver
  · -- direct learned fillable: is_learned_fillable is True
    left
    split at hdir
    · rw [List.mem_singleton] at hdir
      subst hdir
      rfl
    · exact absurd hdir (by simp)
  · -- verification match: confidence x 0.85
    right
    cases hv : p.2.verifications.lookup header with
    | none => rw [hv] at hver; exact absurd hver (by simp)
    | some v =>
      rw [hv] at hver
      rw [List.mem_singleton] at hver
      subst hver
      have hconf := hwf p hp (header, v) (lookup_mem hv)
      show (v.confidence.getD 0) * (17/20) ≤ 17/20
      nlinarith [hconf.1, hconf.2]

theorem pickBest_ge (cs : List Candidate) (c : Candidate) :
    c.confidence ≤ (pickBest c cs).confidence ∧
    ∀ x ∈ cs, x.confidence ≤ (pickBest c cs).confidence := by
  induction cs generalizing c with
  | nil => exact ⟨le_refl _, by simp⟩
  | cons d t ih =>
    unfold pickBest at ih ⊢
    rw [List.foldl_cons]
    constructor
    · by_cases h : c.confidence < d.confidence
      · simp only [if_pos h]
        exact le_trans (le_of_lt h) (ih d).1
      · simp only [if_neg h]
        exact (ih c).1
    · intro x hx
      rcases List.mem_cons.mp hx with rfl | hx
      · by_cases h : c.confidence < x.confidence
        · simp only [if_pos h]
          exact (ih x).1
        · simp only [if_neg h]
          exact le_trans (le_of_not_lt h) (ih c).1
      · by_cases h : c.confidence < d.confidence
        · simp only [if_pos h]
          exact (ih d).2 x hx
        · simp only [if_neg h]
          exact (ih c).2 x hx

theorem pickBest_mem (cs : List Candidate) (c : Candidate) :
    pickBest c cs ∈ c :: cs := by
  unfold pickBest
  have h := foldl_choice (α := Candidate)
    (fun best x => if best.confidence < x.confidence then x else best)
    (fun x y => by dsimp only; split <;> [exact Or.inr rfl; exact Or.inl rfl]) cs c
  rcases h with h | h
  · rw [h]
    exact List.mem_cons_self _ _
  · exact List.mem_cons_of_mem _ h

/-- C2 — For every well-formed Pattern Store (stored verification confidences
in [0,1]), every threshold, and every analyzed non-empty column header that is
a member of the columns_to_fill set of at least one learned sheet, the
Cross-Sheet Identification Engine decides "fill" for that column with final
confidence at least 0.7 — regardless of the configured threshold. -/
theorem cross_sheet_direct_fill_spec (verifyLabel : String → String × ℚ × String)
    (sheets : List (String × LearnedSheet)) (threshold enhConf : ℚ) (enhanced : Bool)
    (header : String) (hne : header ≠ "") (hwf : StoreWF sheets)
    (hmem : ∃ p ∈ sheets, header ∈ p.2.columns_to_fill) :
    (analyzeColumn verifyLabel header sheets enhanced enhConf threshold).decision = "fill" ∧
    (7/10 : ℚ) ≤ (analyzeColumn verifyLabel header sheets enhanced enhConf threshold).confidence := by
  obtain ⟨p, hp, hpm⟩ := hmem
  have hdir : ∃ d ∈ candidatesFor header sheets,
      d.confidence = 19/20 ∧ d.is_learned_fillable = true := by
    refine ⟨⟨19/20, "direct_learned_fillable", p.1,
      (((p.2.verifications.lookup header).getD emptyVerification).label).getD "unknown",
      (((p.2.verifications.lookup header).getD emptyVerification).method).getD "learned",
      true, ["direct_match", "learned_fillable"]⟩, ?_, rfl, rfl⟩
    unfold candidatesFor
    rw [List.mem_flatMap]
    refine ⟨p, hp, ?_⟩
    unfold sheetCandidates
    rw [if_pos hpm]
    exact List.mem_append_left _ (List.mem_append_left _
      (List.mem_append_left _ (List.mem_singleton.mpr rfl)))
  obtain ⟨d, hd, hdconf, hdilf⟩ := hdir
  cases hcs : candidatesFor header sheets with
  | nil => rw [hcs] at hd; exact absurd hd (by simp)
  | cons c cs =>
    have hdmem : d ∈ c :: cs := hcs ▸ hd
    have hge := pickBest_ge cs c
    have hbestge : (19/20 : ℚ) ≤ (pickBest c cs).confidence := by
      rcases List.mem_cons.mp hdmem with rfl | hdm
      · rw [← hdconf]; exact hge.1
      · rw [← hdconf]; exact hge.2 d hdm
    have hbestmem : pickBest c cs ∈ candidatesFor header sheets := by
      rw [hcs]; exact pickBest_mem cs c
    have hilf : (pickBest c cs).is_learned_fillable = true := by
      rcases candidate_bound hwf _ hbestmem with h | h
      · exact h
      · linarith
    unfold analyzeColumn findBestCrossSheetMatch
    rw [hcs]
    dsimp only
    constructor
    · rw [hilf]
      simp
    · have hb : (0:ℚ) ≤ if enhanced && decide ((4/5 : ℚ) < enhConf) then 3/20 else 0 := by
        split <;> norm_num
      refine le_min (by linarith) (by norm_num)

/-- Witness for C2: a one-sheet store whose sheet lists "h" as fillable; even
with threshold 5 the decision is "fill" with confidence at least 0.7. -/
theorem cross_sheet_direct_fill_spec_witness :
    (analyzeColumn (fun _ => ("unknown", 3/10, "mock-unknown")) "h"
      [("s", ⟨["h"], [], []⟩)] false 0 5).decision = "fill" ∧
    (7/10 : ℚ) ≤ (analyzeColumn (fun _ => ("unknown", 3/10, "mock-unknown")) "h"
      [("s", ⟨["h"], [], []⟩)] false 0 5).confidence := by
  refine cross_sheet_direct_fill_spec _ _ 5 0 false "h" (by simp) ?_ ?_
  · intro p hp q hq
    rw [List.mem_singleton] at hp
    subst hp
    simp at hq
  · exact ⟨("s", ⟨["h"], [], []⟩), by simp, by simp⟩

/-- One fillable-column entry of a per-sheet cross-sheet analysis result (only
the confidence is read by the consolidation). -/
structure CSColumn where
  header : String
  confidence : ℚ
deriving DecidableEq

/-- One per-sheet result of `_analyze_sheet_with_cross_patterns`: either the
error dictionary (requested sheet not found — it has no "columns" key) or the
columns/unknowns lists. -/
inductive CSSheetResult where
  | err (msg : String) : CSSheetResult
  | ok (columns unknowns : List CSColumn) : CSSheetResult
deriving DecidableEq

/-- `sum(c["confidence"] for c in columns) / len(columns)`. -/
def avgConf (cols : List CSColumn) : ℚ :=
  (cols.map (fun c => c.confidence)).sum / (cols.length : ℚ)

/-- One step of the best-sheet loop in `_consolidate_cross_sheet_results`
(lines 278-290): error sheets and sheets without fillable columns are skipped;
a sheet replaces the current best only with a strictly greater score
len(columns) x average confidence. -/
def selectStep (acc : Option String × ℚ) (entry : String × CSSheetResult) :
    Option String × ℚ :=
  match entry.2 with
  | .err _ => acc
  | .ok cols _ =>
    if cols = [] then acc
    else if acc.2 < (cols.length : ℚ) * avgConf cols then
      (some entry.1, (cols.length : ℚ) * avgConf cols)
    else acc

/-- The best sheet and its score, starting from (None, 0). -/
def selectBest (rs : List (String × CSSheetResult)) : Option String × ℚ :=
  rs.foldl selectStep (none, 0)

/-- The aggregate score of one sheet result: count of fillable columns times
their average confidence (0 for error sheets and sheets with no columns, which
the loop never selects). -/
def scoreOf : CSSheetResult → ℚ
  | .err _ => 0
  | .ok cols _ => if cols = [] then 0 else (cols.length : ℚ) * avgConf cols

/-- The consolidated result of `_consolidate_cross_sheet_results`
(lines 270-333): primary sheet, its result dictionary, and the summary counts. -/
structure Consolidated where
  primary_sheet : Option String
  primary_results : Option CSSheetResult
  best_sheet_score : ℚ
  sheets_processed : ℕ
  total_fillable_columns : ℕ
  total_unknown_columns : ℕ
deriving DecidableEq

/-- `CrossSheetAnalyzer._consolidate_cross_sheet_results` over the per-sheet
results (in iteration order). -/
def consolidate (rs : List (String × CSSheetResult)) : Consolidated :=
  ⟨(selectBest rs).1,
   (selectBest rs).1.bind (fun n => rs.lookup n),
   (selectBest rs).2,
   (rs.filter (fun x => match x.2 with | .err _ => false | .ok _ _ => true)).length,
   (rs.map (fun x => match x.2 with | .err _ => 0 | .ok cols _ => cols.length)).sum,
   (rs.map (fun x => match x.2 with | .err _ => 0 | .ok _ us => us.length)).sum⟩

/-- Outcome of the top-level identification: the cross-sheet consolidated
report, or the fall-back to single-sheet (enhanced sheet-first) identification
invoked with the same threshold. -/
inductive IdentifyOutcome where
  | crossSheet (c : Consolidated) : IdentifyOutcome
  | fallbackEnhanced (threshold : ℚ) : IdentifyOutcome
deriving DecidableEq

/-- The decision layer of `identifier.identify_required_columns`
(lines 195-224) over the per-sheet cross-sheet analysis results: return the
cross-sheet result when the primary sheet has at least one fillable column
whose average confidence reaches 80 percent of the threshold, otherwise fall
back to `enhanced_identify_required_columns` with the same threshold (the
`except` fallback is unreachable in this pure model). -/
def identify_required_columns (rs : List (String × CSSheetResult)) (threshold : ℚ) :
    IdentifyOutcome :=
  match (consolidate rs).primary_results with
  | some (.ok cols _) =>
    if cols ≠ [] then
      if threshold * (4/5) ≤ avgConf cols then IdentifyOutcome.crossSheet (consolidate rs)
      else IdentifyOutcome.fallbackEnhanced threshold
    else IdentifyOutcome.fallbackEnhanced threshold
  | some (.err _) => IdentifyOutcome.fallbackEnhanced threshold
  | none => IdentifyOutcome.fallbackEnhanced threshold

theorem selectStep_ge (acc : Option String × ℚ) (e : String × CSSheetResult) :
    acc.2 ≤ (selectStep acc e).2 := by
  unfold selectStep
  cases e.2 with
  | err m => exact le_refl _
  | ok cols us =>
    dsimp only
    split
    · exact le_refl _
    · split
      · rename_i hlt
        exact le_of_lt hlt
      · exact le_refl _

theorem selectStep_sc (acc : Option String × ℚ) (e : String × CSSheetResult)
    (hacc : 0 ≤ acc.2) : scoreOf e.2 ≤ (selectStep acc e).2 := by
  unfold selectStep scoreOf
  cases e.2 with
  | err m => exact hacc
  | ok cols us =>
    dsimp only
    by_cases hc : cols = []
    · rw [if_pos hc, if_pos hc]
      exact hacc
    · rw [if_neg hc, if_neg hc]
      by_cases hlt : acc.2 < (cols.length : ℚ) * avgConf cols
      · rw [if_pos hlt]
      · rw [if_neg hlt]
        exact le_of_not_lt hlt

theorem selectStep_shape (acc : Option String × ℚ) (e : String × CSSheetResult)
    (hacc : 0 ≤ acc.2) :
    selectStep acc e = acc ∨
      ((selectStep acc e).1 = some e.1 ∧ (selectStep acc e).2 = scoreOf e.2 ∧
        0 < (selectStep acc e).2) := by
  unfold selectStep scoreOf
  cases e.2 with
  | err m => exact Or.inl rfl
  | ok cols us =>
    dsimp only
    by_cases hc : cols = []
    · rw [if_pos hc]
      exact Or.inl rfl
    · rw [if_neg hc, if_neg hc]
      by_cases hlt : acc.2 < (cols.length : ℚ) * avgConf cols
      · rw [if_pos hlt]
        exact Or.inr ⟨rfl, rfl, lt_of_le_of_lt hacc hlt⟩
      · rw [if_neg hlt]
        exact Or.inl rfl

theorem selectFold_spec :
    ∀ (rs : List (String × CSSheetResult)) (acc : Option String × ℚ), 0 ≤ acc.2 →
      (∀ p ∈ rs, scoreOf p.2 ≤ (rs.foldl selectStep acc).2) ∧
      acc.2 ≤ (rs.foldl selectStep acc).2 ∧
      ((rs.foldl selectStep acc).1 = acc.1 ∧ (rs.foldl selectStep acc).2 = acc.2 ∨
        ∃ n r, (rs.foldl selectStep acc).1 = some n ∧ (n, r) ∈ rs ∧
          scoreOf r = (rs.foldl selectStep acc).2 ∧ 0 < (rs.foldl selectStep acc).2) := by
  intro rs
  induction rs with
  | nil =>
    intro acc _
    exact ⟨by simp, le_refl _, Or.inl ⟨rfl, rfl⟩⟩
  | cons e t ih =>
    intro acc hacc
    rw [List.foldl_cons]
    have hge := selectStep_ge acc e
    obtain ⟨ih1, ih2, ih3⟩ := ih (selectStep acc e) (le_trans hacc hge)
    refine ⟨?_, le_trans hge ih2, ?_⟩
    · intro p hp
      rcases List.mem_cons.mp hp with rfl | hp'
      · exact le_trans (selectStep_sc acc p hacc) ih2
      · exact ih1 p hp'
    · rcases ih3 with ⟨hf1, hf2⟩ | ⟨n, r, h1, h2, h3, h4⟩
      · rcases selectStep_shape acc e hacc with heq | ⟨g1, g2, g3⟩
        · exact Or.inl ⟨by rw [hf1, heq], by rw [hf2, heq]⟩
        · refine Or.inr ⟨e.1, e.2, by rw [hf1]; exact g1, by simp, ?_, ?_⟩
          · rw [hf2, g2]
          · rw [hf2]; exact g3
      · exact Or.inr ⟨n, r, h1, List.mem_cons_of_mem _ h2, h3, h4⟩

theorem lookup_eq_of_mem_nodup {α : Type} :
    ∀ {l : List (String × α)}, (l.map Prod.fst).Nodup →
      ∀ {k : String} {v : α}, (k, v) ∈ l → l.lookup k = some v := by
  intro l
  induction l with
  | nil =>
    intro _ k v h
    exact absurd h (by simp)
  | cons a t ih =>
    intro hnd k v h
    rw [List.map_cons, List.nodup_cons] at hnd
    rcases List.mem_cons.mp h with heq | hmem
    · rw [← heq]
      simp [List.lookup]
    · have hk : (k == a.1) = false := by
        simp only [beq_eq_false_iff_ne, ne_eq]
        intro hkk
        exact hnd.1 (by rw [← hkk]; exact List.mem_map.mpr ⟨(k, v), hmem, rfl⟩)
      cases a with
      | mk a1 a2 =>
        simp only [List.lookup, hk]
        exact ih hnd.2 hmem

/-- C6 — The top-level identification selects as primary the sheet with the
highest aggregate score (columns count x average confidence), returns the
cross-sheet result exactly when the primary result has at least one fillable
column with average confidence at least 0.8 x threshold, and otherwise falls
back to single-sheet identification with the same threshold. -/
theorem identify_primary_selection_spec (rs : List (String × CSSheetResult)) (t : ℚ)
    (hnd : (rs.map Prod.fst).Nodup) :
    (∀ p ∈ rs, scoreOf p.2 ≤ (consolidate rs).best_sheet_score) ∧
    (∀ n, (consolidate rs).primary_sheet = some n →
      ∃ r, (n, r) ∈ rs ∧ (consolidate rs).primary_results = some r ∧
        scoreOf r = (consolidate rs).best_sheet_score ∧
        0 < (consolidate rs).best_sheet_score) ∧
    (identify_required_columns rs t = IdentifyOutcome.crossSheet (consolidate rs) ↔
      ∃ cols us, (consolidate rs).primary_results = some (CSSheetResult.ok cols us) ∧
        cols ≠ [] ∧ t * (4/5) ≤ avgConf cols) ∧
    (identify_required_columns rs t = IdentifyOutcome.crossSheet (consolidate rs) ∨
      identify_required_columns rs t = IdentifyOutcome.fallbackEnhanced t) := by
  obtain ⟨hs1, _, hs3⟩ := selectFold_spec rs (none, 0) (le_refl 0)
  have hshape : ∀ n, (selectBest rs).1 = some n →
      ∃ r, (n, r) ∈ rs ∧ rs.lookup n = some r ∧
        scoreOf r = (selectBest rs).2 ∧ 0 < (selectBest rs).2 := by
    intro n hn
    rcases hs3 with ⟨h1, _⟩ | ⟨n', r, h1, h2, h3, h4⟩
    · rw [selectBest] at hn
      rw [h1] at hn
      exact absurd hn (by simp)
    · have : n' = n := by
        rw [selectBest] at hn
        rw [h1] at hn
        injection hn
      subst this
      exact ⟨r, h2, lookup_eq_of_mem_nodup hnd h2, h3, h4⟩
  refine ⟨hs1, ?_, ?_, ?_⟩
  · intro n hn
    obtain ⟨r, hmem, hlook, hsc, hpos⟩ := hshape n hn
    refine ⟨r, hmem, ?_, hsc, hpos⟩
    show (selectBest rs).1.bind (fun n => rs.lookup n) = some r
    have hn' : (selectBest rs).1 = some n := hn
    rw [hn']
    exact hlook
  · constructor
    · intro heq
      unfold identify_required_columns at heq
      split at heq
      · rename_i cols us hpr
        split at heq
        · rename_i hc
          split at heq
          · rename_i ha
            exact ⟨cols, us, hpr, hc, ha⟩
          · simp at heq
        · simp at heq
      · simp at heq
      · simp at heq
    · rintro ⟨cols, us, hpr, hc, ha⟩
      unfold identify_required_columns
      simp only [hpr]
      rw [if_pos hc, if_pos ha]
  · unfold identify_required_columns
    split
    · split
      · split
        · exact Or.inl rfl
        · exact Or.inr rfl
      · exact Or.inr rfl
    · exact Or.inr rfl
    · exact Or.inr rfl

/-- Witness for C6: a single sheet with one fillable column of confidence 1 is
selected as primary, and its score bounds every sheet score. -/
theorem identify_primary_selection_spec_witness :
    scoreOf (CSSheetResult.ok [⟨"h", 1⟩] []) ≤
      (consolidate [("a", CSSheetResult.ok [⟨"h", 1⟩] [])]).best_sheet_score :=
  (identify_primary_selection_spec [("a", CSSheetResult.ok [⟨"h", 1⟩] [])] 1
    (by simp)).1 ("a", CSSheetResult.ok [⟨"h", 1⟩] []) (by simp)

/-- JSON values (numbers as exact rationals). -/
inductive Json where
  | jnull : Json
  | jbool (b : Bool) : Json
  | jnum (q : ℚ) : Json
  | jstr (s : String) : Json
  | jarr (xs : List Json) : Json
  | jobj (kvs : List (String × Json)) : Json

/-- JSON whitespace. -/
def jsonWs (c : Char) : Bool :=
  c == ' ' || c == '\t' || c == '\n' || c == '\r'

/-- Hex digit value (by character code: 48-57 digits, 97-102 and 65-70 the
lowercase and uppercase letters). -/
def hexVal (c : Char) : Option Nat :=
  let n := c.toNat
  if 48 ≤ n ∧ n ≤ 57 then some (n - 48)
  else if 97 ≤ n ∧ n ≤ 102 then some (n - 87)
  else if 65 ≤ n ∧ n ≤ 70 then some (n - 55)
  else none

/-- Decode a JSON string body (after the opening quote): ordinary characters,
the standard escapes and 4-digit unicode escapes, up to the closing quote. -/
def decStrBody : List Char → Option (List Char × List Char)
  | [] => none
  | c :: rest =>
    if c == '"' then some ([], rest)
    else if c == '\\' then
      match rest with
      | [] => none
      | e :: rest2 =>
        if e == 'u' then
          match rest2 with
          | h1 :: h2 :: h3 :: h4 :: rest3 =>
            match hexVal h1, hexVal h2, hexVal h3, hexVal h4 with
            | some a, some b, some c3, some d =>
              (decStrBody rest3).map (fun pr =>
                (Char.ofNat (((a * 16 + b) * 16 + c3) * 16 + d) :: pr.1, pr.2))
            | _, _, _, _ => none
          | _ => none
        else
          match
            (if e == '"' then some '"'
             else if e == '\\' then some '\\'
             else if e == '/' then some '/'
             else if e == 'b' then some '\x08'
             else if e == 'f' then some '\x0c'
             else if e == 'n' then some '\n'
             else if e == 'r' then some '\r'
             else if e == 't' then some '\t'
             else none) with
          | some d => (decStrBody rest2).map (fun pr => (d :: pr.1, pr.2))
          | none => none
    else if c.toNat < 32 then none
    else (decStrBody rest).map (fun pr => (c :: pr.1, pr.2))
termination_by l => l.length
decreasing_by all_goals simp_arith [List.length_drop]

/-- Decode the digits of a natural number (at least one digit). -/
def decDigits : List Char → Option (Nat × Nat × List Char)
  | c :: rest =>
    if c.isDigit then
      match decDigits rest with
      | some (v, n, r) => some ((c.toNat - '0'.toNat) * 10 ^ n + v, n + 1, r)
      | none => some (c.toNat - '0'.toNat, 1, rest)
    else none
  | [] => none

/-- Decode a JSON number per the grammar `-? int frac? exp?` with the
no-leading-zero rule; the exact rational value is returned (json.loads builds a
float; the exact value is the idealisation). -/
def decNumber (l : List Char) : Option (ℚ × List Char) :=
  let signed : Bool × List Char :=
    match l with
    | '-' :: r => (true, r)
    | _ => (false, l)
  match decDigits signed.2 with
  | none => none
  | some (iv, idig, r1) =>
    if 2 ≤ idig && (signed.2.headD '0' == '0') then none
    else
      let frac : ℚ × List Char :=
        match r1 with
        | '.' :: r2 =>
          match decDigits r2 with
          | some (fv, fdig, r3) => ((fv : ℚ) / (10 ^ fdig : ℚ), r3)
          | none => (0, r1)
        | _ => (0, r1)
      if frac.2 == r1 && (r1.headD ' ' == '.') then none
      else
        let ev : Option (Int × List Char) :=
          match frac.2 with
          | 'e' :: r4 =>
            (match r4 with
             | '-' :: r5 => (decDigits r5).map (fun t => (-(t.1 : Int), t.2.2))
             | '+' :: r5 => (decDigits r5).map (fun t => ((t.1 : Int), t.2.2))
             | _ => (decDigits r4).map (fun t => ((t.1 : Int), t.2.2)))
          | 'E' :: r4 =>
            (match r4 with
             | '-' :: r5 => (decDigits r5).map (fun t => (-(t.1 : Int), t.2.2))
             | '+' :: r5 => (decDigits r5).map (fun t => ((t.1 : Int), t.2.2))
             | _ => (decDigits r4).map (fun t => ((t.1 : Int), t.2.2)))
          | _ => some (0, frac.2)
        match ev with
        | none => none
        | some (e, rest) =>
          let mag : ℚ := ((iv : ℚ) + frac.1) * (10 : ℚ) ^ e
          some (if signed.1 then -mag else mag, rest)

mutual

/-- Decode one JSON value (fuel-bounded recursion; the fuel is instantiated
large enough for any input). -/
def decValue : Nat → List Char → Option (Json × List Char)
  | 0, _ => none
  | fuel + 1, l =>
    match l.dropWhile jsonWs with
    | [] => none
    | c :: rest =>
      if c == 'n' then
        if litPre "ull".data rest then some (Json.jnull, rest.drop 3) else none
      else if c == 't' then
        if litPre "rue".data rest then some (Json.jbool true, rest.drop 3) else none
      else if c == 'f' then
        if litPre "alse".data rest then some (Json.jbool false, rest.drop 4) else none
      else if c == '"' then
        (decStrBody rest).map (fun pr => (Json.jstr (String.mk pr.1), pr.2))
      else if c == '[' then
        match rest.dropWhile jsonWs with
        | ']' :: r2 => some (Json.jarr [], r2)
        | _ => (decElems fuel rest).map (fun pr => (Json.jarr pr.1, pr.2))
      else if c == '\x7b' then
        match rest.dropWhile jsonWs with
        | '\x7d' :: r2 => some (Json.jobj [], r2)
        | _ => (decMembers fuel rest).map (fun pr => (Json.jobj pr.1, pr.2))
      else
        decNumber (c :: rest) |>.map (fun pr => (Json.jnum pr.1, pr.2))

/-- Decode the comma-separated elements of a non-empty array, including the
closing bracket. -/
def decElems : Nat → List Char → Option (List Json × List Char)
  | 0, _ => none
  | fuel + 1, l =>
    match decValue fuel l with
    | none => none
    | some (v, r1) =>
      match r1.dropWhile jsonWs with
      | ',' :: r2 => (decElems fuel r2).map (fun pr => (v :: pr.1, pr.2))
      | ']' :: r2 => some ([v], r2)
      | _ => none

/-- Decode the comma-separated members of a non-empty object, including the
closing brace. -/
def decMembers : Nat → List Char → Option (List (String × Json) × List Char)
  | 0, _ => none
  | fuel + 1, l =>
    match l.dropWhile jsonWs with
    | '"' :: r1 =>
      match decStrBody r1 with
      | none => none
      | some (k, r2) =>
        match r2.dropWhile jsonWs with
        | ':' :: r3 =>
          match decValue fuel r3 with
          | none => none
          | some (v, r4) =>
            match r4.dropWhile jsonWs with
            | ',' :: r5 => (decMembers fuel r5).map (fun pr => ((String.mk k, v) :: pr.1, pr.2))
            | '\x7d' :: r5 => some ([(String.mk k, v)], r5)
            | _ => none
        | _ => none
    | _ => none

end

/-- `json.loads`: decode a complete JSON document (nothing but whitespace may
follow the value). -/
def jsonDecode (l : List Char) : Option Json :=
  match decValue (2 * l.length + 2) l with
  | none => none
  | some (v, rest) => if rest.dropWhile jsonWs = [] then some v else none

/-- `re.search(r'\{.*\}', text, re.DOTALL)`: with the greedy dot-matches-all
body, the match (when it exists) runs from the first opening brace to the last
closing brace after it. -/
def extractJsonCand (s : List Char) : Option (List Char) :=
  match s.findIdx? (fun c => c == '\x7b') with
  | none => none
  | some i =>
    match s.reverse.findIdx? (fun c => c == '\x7d') with
    | none => none
    | some jr =>
      let j := s.length - 1 - jr
      if i < j then some ((s.drop i).take (j - i + 1)) else none

/-- Lookup of a key in a decoded JSON object. -/
def objField (j : Json) (k : String) : Option Json :=
  match j with
  | Json.jobj kvs => kvs.lookup k
  | _ => none

/-- `EnhancedHeaderDetector.parse_openai_response` (lines 420-442): extract a
brace-delimited candidate and decode it; with no candidate, return the fallback
dictionary with confidence 0.5 and the raw text as reasoning; on a decode
error, return the zero-confidence dictionary (the caught exception text is
abbreviated to "Parsing error"). -/
def parse_openai_response (text : List Char) : Json :=
  match extractJsonCand text with
  | some cand =>
    match jsonDecode cand with
    | some v => v
    | none => Json.jobj [("validated_mapping", Json.jobj []), ("confidence", Json.jnum 0),
        ("reasoning", Json.jstr "Parsing error"), ("improvements", Json.jarr [])]
  | none => Json.jobj [("validated_mapping", Json.jobj []), ("confidence", Json.jnum (1/2)),
      ("reasoning", Json.jstr (String.mk text)), ("improvements", Json.jarr [])]

/-- C7 counterexample — a response without any brace-delimited JSON (here
"no json here") cannot be parsed into a structured result, yet the returned
outcome carries confidence 0.5, not 0.0 (the mapping is empty as claimed). -/
theorem parse_response_fallback_confidence :
    extractJsonCand "no json here".data = none ∧
    objField (parse_openai_response "no json here".data) "validated_mapping" =
      some (Json.jobj []) ∧
    objField (parse_openai_response "no json here".data) "confidence" =
      some (Json.jnum (1/2)) ∧
    Json.jnum (1/2) ≠ Json.jnum 0 := by
  refine ⟨rfl, rfl, rfl, ?_⟩
  intro h
  injection h with h
  exact absurd h (by norm_num)

/-- C7 amended — parsing is a total function (exceptions are caught inside):
when no brace-delimited candidate exists the outcome is the empty mapping with
confidence 0.5 and the raw text as reasoning; when a candidate exists but JSON
decoding fails the outcome is the empty mapping with confidence 0.0. -/
theorem parse_response_error_outcome_amended (text : List Char) :
    (extractJsonCand text = none →
      objField (parse_openai_response text) "validated_mapping" = some (Json.jobj []) ∧
      objField (parse_openai_response text) "confidence" = some (Json.jnum (1/2))) ∧
    (∀ cand, extractJsonCand text = some cand → jsonDecode cand = none →
      objField (parse_openai_response text) "validated_mapping" = some (Json.jobj []) ∧
      objField (parse_openai_response text) "confidence" = some (Json.jnum 0)) := by
  constructor
  · intro h
    unfold parse_openai_response
    rw [h]
    exact ⟨rfl, rfl⟩
  · intro cand hc hd
    unfold parse_openai_response
    rw [hc]
    dsimp only
    rw [hd]
    exact ⟨rfl, rfl⟩

/-- Witness for the amended C7 at the brace-free response "no json here". -/
theorem parse_response_error_outcome_amended_witness :
    objField (parse_openai_response "no json here".data) "validated_mapping" =
      some (Json.jobj []) ∧
    objField (parse_openai_response "no json here".data) "confidence" =
      some (Json.jnum (1/2)) :=
  (parse_response_error_outcome_amended "no json here".data).1 rfl

/-- Substring search (re.search with a literal pattern). -/
def containsSub (pat : List Char) : List Char → Bool
  | [] => litPre pat []
  | l@(_ :: t) => litPre pat l || containsSub pat t

/-- Search of a delimited non-greedy template pattern (`open .*? close`, with
`.` not matching a newline) anywhere in the value. -/
def searchDelim (openL closeL : List Char) : List Char → Bool
  | [] => false
  | l@(_ :: t) =>
    (litPre openL l && (seekClose closeL (l.drop openL.length)).isSome) ||
    searchDelim openL closeL t

/-- A sheet as the header detector reads it: the column identifiers and the
data rows.  A row is the list of its stringified cell values in column order
(`str(row.get(f'col_i', ''))`). -/
structure PySheet where
  columns : List String
  data : List (List String)

/-- The valid cell values of one row: stripped, non-empty and not the literal
"nan" case-insensitively, over the first `column_count` columns. -/
def validVals (columnCount : Nat) (row : List String) : List (List Char) :=
  (List.range columnCount).filterMap (fun i =>
    let v := pyStrip (row.getD i "").data
    if v ≠ [] ∧ v.map Char.toLower ≠ "nan".data then some v else none)

/-- The valid values of row `ri` of a sheet. -/
def rowValidVals (sheet : PySheet) (ri : Nat) : List (List Char) :=
  validVals sheet.columns.length (sheet.data.getD ri [])

/-- The business-domain keyword vocabulary of `EnhancedHeaderDetector.__init__`
(logistics, financial, measurement, temporal, identifiers, geographic,
business, operational). -/
def business_keywords : List (List String) :=
  [["lane", "service", "port", "origin", "destination", "carrier", "freight",
    "shipment", "transport", "routing", "mode", "vessel"],
   ["cost", "price", "rate", "fee", "charge", "amount", "total", "minimum",
    "surcharge", "currency", "billing", "payment", "invoice"],
   ["cbm", "volume", "weight", "kilos", "pounds", "tons", "cubic", "meter",
    "feet", "dimensions", "length", "width", "height"],
   ["date", "time", "effective", "expiration", "valid", "period", "duration",
    "schedule", "start", "end", "from", "to"],
   ["id", "code", "number", "reference", "tracking", "lane_id", "item", "sku",
    "part", "model", "serial"],
   ["country", "region", "zone", "area", "location", "address", "city",
    "state", "continent", "territory"],
   ["quote", "bid", "proposal", "contract", "agreement", "terms", "conditions",
    "client", "customer", "vendor", "supplier"],
   ["status", "type", "category", "class", "grade", "level", "priority",
    "urgency", "requirements"]]

/-- One value matches the keyword strategy when some category contains some
keyword occurring in the lowercased value. -/
def keywordHit (v : List Char) : Bool :=
  business_keywords.any (fun cat => cat.any (fun kw => containsSub kw.data (v.map Char.toLower)))

/-- Descending stable insertion (after the elements of equal or larger score). -/
def insDesc (x : Nat × ℚ) : List (Nat × ℚ) → List (Nat × ℚ)
  | [] => [x]
  | y :: t => if x.2 ≤ y.2 then y :: insDesc x t else x :: y :: t

/-- Python `sorted(candidates, key=lambda x: x[1], reverse=True)`: stable sort
by score, highest first. -/
def sortDesc (l : List (Nat × ℚ)) : List (Nat × ℚ) :=
  l.foldl (fun acc x => insDesc x acc) []

/-- Keyword score of a row (strategy 1): keyword-hit fraction times 40. -/
def s1Score (sheet : PySheet) (ri : Nat) : ℚ :=
  (((rowValidVals sheet ri).filter keywordHit).length : ℚ) /
    ((rowValidVals sheet ri).length : ℚ) * 40

/-- `EnhancedHeaderDetector.strategy_1_pattern_based` (lines 127-163), with the
candidates reduced to (row index, score); the echoed diagnostics dictionary is
omitted.  Rows with fewer than 3 valid values are rejected; the score must
exceed 15. -/
def strategy_1_pattern_based (sheet : PySheet) : List (Nat × ℚ) :=
  sortDesc ((List.range (min 50 sheet.data.length)).filterMap (fun ri =>
    if (rowValidVals sheet ri).length < 3 then none
    else if 15 < s1Score sheet ri then some (ri, s1Score sheet ri) else none))

/-- Structural score of a row (strategy 2): coverage x 30 + uniqueness x 25 +
underscore ratio x 20 + 15 when the average length lies in [3, 25]. -/
def s2Score (sheet : PySheet) (ri : Nat) : ℚ :=
  ((rowValidVals sheet ri).length : ℚ) / (sheet.columns.length : ℚ) * 30 +
  ((rowValidVals sheet ri).dedup.length : ℚ) / ((rowValidVals sheet ri).length : ℚ) * 25 +
  (((rowValidVals sheet ri).filter (fun v => v.contains '_')).length : ℚ) /
    ((rowValidVals sheet ri).length : ℚ) * 20 +
  (if 3 ≤ (((rowValidVals sheet ri).map List.length).sum : ℚ) / ((rowValidVals sheet ri).length : ℚ) ∧
      (((rowValidVals sheet ri).map List.length).sum : ℚ) / ((rowValidVals sheet ri).length : ℚ) ≤ 25
   then 15 else 0)

/-- `EnhancedHeaderDetector.strategy_2_structural_analysis` (lines 165-212):
threshold 20. -/
def strategy_2_structural_analysis (sheet : PySheet) : List (Nat × ℚ) :=
  sortDesc ((List.range (min 50 sheet.data.length)).filterMap (fun ri =>
    if (rowValidVals sheet ri).length < 3 then none
    else if 20 < s2Score sheet ri then some (ri, s2Score sheet ri) else none))

/-- One value matches some template pattern of `self.template_patterns`. -/
def matchesTemplate (v : List Char) : Bool :=
  searchDelim "<<".data ">>".data v ||
  searchDelim ['\x7b', '\x7b'] ['\x7d', '\x7d'] v ||
  searchDelim ['$', '\x7b'] ['\x7d'] v ||
  containsSub "axis(".data v || containsSub "bid|".data v ||
  containsSub "template.".data v || containsSub "var.".data v

/-- Template score of a row (strategy 3): template-match fraction times 50. -/
def s3Score (sheet : PySheet) (ri : Nat) : ℚ :=
  (((rowValidVals sheet ri).filter matchesTemplate).length : ℚ) /
    ((rowValidVals sheet ri).length : ℚ) * 50

/-- `EnhancedHeaderDetector.strategy_3_template_pattern` (lines 214-254):
threshold 10. -/
def strategy_3_template_pattern (sheet : PySheet) : List (Nat × ℚ) :=
  sortDesc ((List.range (min 50 sheet.data.length)).filterMap (fun ri =>
    if (rowValidVals sheet ri).length < 3 then none
    else if 10 < s3Score sheet ri then some (ri, s3Score sheet ri) else none))

/-- The pattern-match total of strategy 4 over a row: +1 per value containing
some learned positive indicator (first hit only), -0.5 per matching negative
indicator (no break in the source's negative loop). -/
def s4Matches (pos neg : List String) (vals : List (List Char)) : ℚ :=
  vals.foldl (fun pm v =>
    pm + (if pos.any (fun p => containsSub (p.data.map Char.toLower)
            ((clean_header_name v).map Char.toLower)) then 1 else 0) -
      ((neg.filter (fun p => containsSub (p.data.map Char.toLower)
            ((clean_header_name v).map Char.toLower))).length : ℚ) * (1/2)) 0

/-- `EnhancedHeaderDetector.strategy_4_historical_learning` (lines 256-315):
rows are kept only when the pattern-match total is positive; the score is the
total divided by the value count times 30. -/
def strategy_4_historical_learning (pos neg : List String) (sheet : PySheet) :
    List (Nat × ℚ) :=
  sortDesc ((List.range (min 50 sheet.data.length)).filterMap (fun ri =>
    if (rowValidVals sheet ri).length < 3 then none
    else if 0 < s4Matches pos neg (rowValidVals sheet ri) then
      some (ri, s4Matches pos neg (rowValidVals sheet ri) / ((rowValidVals sheet ri).length : ℚ) * 30)
    else none))

theorem insDesc_mem {x z : Nat × ℚ} : ∀ {l : List (Nat × ℚ)}, z ∈ insDesc x l → z = x ∨ z ∈ l := by
  intro l
  induction l with
  | nil =>
    intro h
    rw [insDesc] at h
    rcases List.mem_singleton.mp h with rfl
    exact Or.inl rfl
  | cons y t ih =>
    intro h
    rw [insDesc] at h
    split at h
    · rcases List.mem_cons.mp h with rfl | h'
      · exact Or.inr (List.mem_cons_self _ _)
      · rcases ih h' with h'' | h''
        · exact Or.inl h''
        · exact Or.inr (List.mem_cons_of_mem _ h'')
    · rcases List.mem_cons.mp h with rfl | h'
      · exact Or.inl rfl
      · exact Or.inr h'

theorem insDesc_sorted (x : Nat × ℚ) :
    ∀ {l : List (Nat × ℚ)}, List.Sorted (fun a b : Nat × ℚ => b.2 ≤ a.2) l →
      List.Sorted (fun a b : Nat × ℚ => b.2 ≤ a.2) (insDesc x l) := by
  intro l
  induction l with
  | nil =>
    intro _
    simp [insDesc]
  | cons y t ih =>
    intro h
    rw [List.sorted_cons] at h
    rw [insDesc]
    split
    · rename_i hxy
      rw [List.sorted_cons]
      refine ⟨?_, ih h.2⟩
      intro z hz
      rcases insDesc_mem hz with rfl | hz'
      · exact hxy
      · exact h.1 z hz'
    · rename_i hxy
      rw [List.sorted_cons]
      refine ⟨?_, List.sorted_cons.mpr h⟩
      intro z hz
      rcases List.mem_cons.mp hz with rfl | hz'
      · exact le_of_lt (lt_of_not_le hxy)
      · exact le_trans (h.1 z hz') (le_of_lt (lt_of_not_le hxy))

theorem sortDesc_sorted (l : List (Nat × ℚ)) :
    List.Sorted (fun a b : Nat × ℚ => b.2 ≤ a.2) (sortDesc l) := by
  have hgen : ∀ (l acc : List (Nat × ℚ)),
      List.Sorted (fun a b : Nat × ℚ => b.2 ≤ a.2) acc →
      List.Sorted (fun a b : Nat × ℚ => b.2 ≤ a.2)
        (l.foldl (fun acc x => insDesc x acc) acc) := by
    intro l
    induction l with
    | nil => intro acc h; exact h
    | cons c t ih =>
      intro acc h
      rw [List.foldl_cons]
      exact ih _ (insDesc_sorted c h)
  exact hgen l [] (by simp)

theorem sortDesc_mem {z : Nat × ℚ} {l : List (Nat × ℚ)} (h : z ∈ sortDesc l) : z ∈ l := by
  have hgen : ∀ (l acc : List (Nat × ℚ)),
      z ∈ l.foldl (fun acc x => insDesc x acc) acc → z ∈ acc ∨ z ∈ l := by
    intro l
    induction l with
    | nil => intro acc h; exact Or.inl h
    | cons c t ih =>
      intro acc h
      rw [List.foldl_cons] at h
      rcases ih _ h with h' | h'
      · rcases insDesc_mem h' with rfl | h''
        · exact Or.inr (List.mem_cons_self _ _)
        · exact Or.inl h''
      · exact Or.inr (List.mem_cons_of_mem _ h')
  rcases hgen l [] h with h' | h'
  · exact absurd h' (by simp)
  · exact h'

/-- The per-candidate contract of claim C8 for one strategy with minimum
threshold θ. -/
def candOK (sheet : PySheet) (θ : ℚ) (l : List (Nat × ℚ)) : Prop :=
  ∀ c ∈ l, c.1 < 50 ∧ c.1 < sheet.data.length ∧
    3 ≤ (rowValidVals sheet c.1).length ∧ θ < c.2

theorem candOK_sortDesc (sheet : PySheet) (θ : ℚ) (f : Nat → Option (Nat × ℚ))
    (hf : ∀ i c, f i = some c → c.1 = i ∧ 3 ≤ (rowValidVals sheet i).length ∧ θ < c.2) :
    candOK sheet θ (sortDesc ((List.range (min 50 sheet.data.length)).filterMap f)) := by
  intro c hc
  have hc' := sortDesc_mem hc
  rw [List.mem_filterMap] at hc'
  obtain ⟨i, hi, hfi⟩ := hc'
  rw [List.mem_range] at hi
  obtain ⟨h1, h2, h3⟩ := hf i c hfi
  rw [h1]
  exact ⟨lt_of_lt_of_le hi (min_le_left _ _), lt_of_lt_of_le hi (min_le_right _ _), h2, h3⟩

/-- C8 — Every candidate returned by each of the four heuristic header-scoring
strategies has a row index among the first 50 data rows, at least 3 valid cell
values in its row (non-empty, not "nan" case-insensitively), a score strictly
above that strategy's minimum threshold (15, 20, 10 and 0 respectively), and
each returned list is sorted with the highest score first. -/
theorem strategy_candidates_spec (sheet : PySheet) (pos neg : List String) :
    candOK sheet 15 (strategy_1_pattern_based sheet) ∧
    List.Sorted (fun a b : Nat × ℚ => b.2 ≤ a.2) (strategy_1_pattern_based sheet) ∧
    candOK sheet 20 (strategy_2_structural_analysis sheet) ∧
    List.Sorted (fun a b : Nat × ℚ => b.2 ≤ a.2) (strategy_2_structural_analysis sheet) ∧
    candOK sheet 10 (strategy_3_template_pattern sheet) ∧
    List.Sorted (fun a b : Nat × ℚ => b.2 ≤ a.2) (strategy_3_template_pattern sheet) ∧
    candOK sheet 0 (strategy_4_historical_learning pos neg sheet) ∧
    List.Sorted (fun a b : Nat × ℚ => b.2 ≤ a.2)
      (strategy_4_historical_learning pos neg sheet) := by
  refine ⟨?_, sortDesc_sorted _, ?_, sortDesc_sorted _, ?_, sortDesc_sorted _, ?_,
    sortDesc_sorted _⟩
  · refine candOK_sortDesc sheet 15 _ ?_
    intro i c hfi
    split at hfi
    · exact absurd hfi (by simp)
    · rename_i hlen
      split at hfi
      · rename_i hsc
        injection hfi with hfi
        rw [← hfi]
        exact ⟨rfl, by omega, hsc⟩
      · exact absurd hfi (by simp)
  · refine candOK_sortDesc sheet 20 _ ?_
    intro i c hfi
    split at hfi
    · exact absurd hfi (by simp)
    · rename_i hlen
      split at hfi
      · rename_i hsc
        injection hfi with hfi
        rw [← hfi]
        exact ⟨rfl, by omega, hsc⟩
      · exact absurd hfi (by simp)
  · refine candOK_sortDesc sheet 10 _ ?_
    intro i c hfi
    split at hfi
    · exact absurd hfi (by simp)
    · rename_i hlen
      split at hfi
      · rename_i hsc
        injection hfi with hfi
        rw [← hfi]
        exact ⟨rfl, by omega, hsc⟩
      · exact absurd hfi (by simp)
  · refine candOK_sortDesc sheet 0 _ ?_
    intro i c hfi
    split at hfi
    · exact absurd hfi (by simp)
    · rename_i hlen
      split at hfi
      · rename_i hpm
        injection hfi with hfi
        rw [← hfi]
        refine ⟨rfl, by omega, ?_⟩
        have hl : (0 : ℚ) < ((rowValidVals sheet i).length : ℚ) := by
          have : 3 ≤ (rowValidVals sheet i).length := by omega
          exact_mod_cast lt_of_lt_of_le (by norm_num) this
        positivity
      · exact absurd hfi (by simp)

/-- A concrete sheet whose first row is a header row of business keywords. -/
def headerSheetW : PySheet :=
  ⟨["col_0", "col_1", "col_2", "col_3"],
   [["Lane ID", "Origin Port", "Destination Port", "Rate (USD)"]]⟩

/-- On the concrete sheet, the keyword strategy returns exactly the first row
with score 40 (all four values match a business keyword). -/
theorem strategy1_headerSheetW_eval :
    strategy_1_pattern_based headerSheetW = [(0, 40)] := by
  have hv : (rowValidVals headerSheetW 0).length = 4 := by decide
  have hk : ((rowValidVals headerSheetW 0).filter keywordHit).length = 4 := by decide
  have hsc : s1Score headerSheetW 0 = 40 := by
    unfold s1Score
    rw [hv, hk]
    norm_num
  unfold strategy_1_pattern_based
  rw [show min 50 headerSheetW.data.length = 1 from by decide,
    show List.range 1 = [0] from by decide]
  rw [List.filterMap_cons, List.filterMap_nil]
  rw [if_neg (by rw [hv]; omega), if_pos (by rw [hsc]; norm_num), hsc]
  rfl

/-- Witness for C8: the candidate (0, 40) of the keyword strategy on the
concrete sheet satisfies the contract with threshold 15. -/
theorem strategy_candidates_spec_witness :
    ((0 : Nat), (40 : ℚ)).1 < 50 ∧ ((0 : Nat), (40 : ℚ)).1 < headerSheetW.data.length ∧
    3 ≤ (rowValidVals headerSheetW ((0 : Nat), (40 : ℚ)).1).length ∧
    (15 : ℚ) < ((0 : Nat), (40 : ℚ)).2 := by
  have hmem : ((0 : Nat), (40 : ℚ)) ∈ strategy_1_pattern_based headerSheetW := by
    rw [strategy1_headerSheetW_eval]
    exact List.mem_singleton.mpr rfl
  exact (strategy_candidates_spec headerSheetW [] []).1 (0, 40) hmem
